import Mathlib

/-!
# Verification of the constraint-propagation solver

Shallow embedding of the repository's constraint solver
(`solver.py`, `sudoku.py`, `map.py`) and proofs about it.

Modelling conventions:

* A Python "state" dict mapping variable names (strings) to candidate
  strings is modelled as an association list `List (String × List Char)`
  in insertion order, exactly the key order of the dict.  `state[item] =
  v` on an existing key keeps its position, on a new key appends at the
  end (Python dict semantics); `state[item]` on a missing key is modelled
  as `[]` (where Python would raise `KeyError` — never reached in any
  theorem below, whose hypotheses keep all referenced variables among
  the keys).
* Python strings of candidate symbols become `List Char` (same order);
  `str.replace(c, '')` for the one-character string `c` becomes
  `List.filter (· ≠ c)`.
* In-place dict mutation becomes state passing; `dict.copy()` is the
  identity on values.  The final contents of the dict object that a
  caller passed into `__search` (which Python mutates in place) is
  returned as an extra component of the result, so that the post-`solve`
  value of `self.__internal_state` is captured exactly.
* Python truthiness of a search result (`if attempt:`) is `truthy`
  below: a dict is truthy iff non-empty, `False`/`None` are falsy.
* The unbounded `while`/recursion of `__reduce`/`__search` is modelled
  with an explicit fuel parameter; `none` means the fuel ran out.  We
  prove that for the solver's (shrinking) reduction rules the fuel
  chosen by `solve` always suffices, so `none` never occurs there.
* Python `set` iteration order (in `peers` and in the `Counter` keys of
  `naked_twins`) is unspecified and randomized across runs; every use in
  the source is order-independent (removals of distinct keys commute),
  and we fix the first-occurrence order.
* The tuple `min` in `__search` compares `(len, name)` lexicographically,
  with Python string comparison = code-point lexicographic order, which
  is exactly `String.lt` in Lean.
-/

namespace CSolver

open List (Sublist)

/-- A solver state: the contents of the Python `state` dict, keys in
insertion order. -/
abbrev PState := List (String × List Char)

/-- `state[item]` (with `[]` for a missing key, where Python raises). -/
def getv (st : PState) (v : String) : List Char :=
  (st.lookup v).getD []

/-- `state[item] = new_val`: replace the value of an existing key in
place, or append a new key at the end. -/
def setv : PState → String → List Char → PState
  | [], item, nv => [(item, nv)]
  | (k, w) :: rest, item, nv =>
    if k = item then (k, nv) :: rest else (k, w) :: setv rest item nv

/-- The pair of instance counters `(reduce_count, search_count)`. -/
abbrev SS := Nat × Nat

/-- Result of `__search`: a solved state dict, or a falsy result
(`False` from `__reduce`, or the implicit `None`). -/
inductive SR where
  | found (st : PState)
  | fail
deriving Inhabited

/-- Python truthiness of a `__search` result: a dict is truthy iff
non-empty; `False` and `None` are falsy. -/
def truthy : SR → Bool
  | SR.found st => !st.isEmpty
  | SR.fail => false

/-- `assign_value` (solver.py:142-163): assign `new_val` to `item`; the
`!=` guard skips the store when the value is unchanged. -/
def assign_value (st : PState) (item : String) (new_val : List Char) : PState :=
  if getv st item = new_val then st else setv st item new_val

/-- `__solved_units` (solver.py:132-136): the keys with a one-symbol
value, in dict (insertion) order. -/
def solvedKeys (st : PState) : List String :=
  (st.filter (fun p => p.2.length == 1)).map Prod.fst

/-- `__solved_units_count` (solver.py:126-130). -/
def solvedCount (st : PState) : Nat :=
  (st.filter (fun p => p.2.length == 1)).length

/-- `__unsolvable_units` (solver.py:138-140): is some candidate set empty? -/
def hasEmpty (st : PState) : Bool :=
  st.any (fun p => p.2.length == 0)

/-- The body of the `for peer in self.__peers[item]` loop of
`__eliminate` for one solved `item`: read the item's current value and
remove it from every peer.  If the item's value was emptied by an
earlier iteration, `state[peer].replace('', '')` is the identity; a
solved item's value can only have shrunk, so it is `[]` or a singleton
when read. -/
def elimStep (peers : String → List String) (st : PState) (item : String) : PState :=
  match getv st item with
  | [c] =>
    (peers item).foldl
      (fun s p => assign_value s p ((getv s p).filter (fun ch => ch ≠ c))) st
  | _ => st

/-- `__eliminate` (solver.py:165-180): for every solved variable, remove
its value from the candidate sets of all its peers.  The solved list is
computed up front, the values are read as the loop reaches them. -/
def eliminate (peers : String → List String) (st : PState) : PState :=
  (solvedKeys st).foldl (elimStep peers) st

/-- One inner step of `__only_choice` (solver.py:182-201): for constraint
group `unit` and symbol `c`, if exactly one variable of the group still
has `c` as a candidate, assign `c` to it. -/
def ocStep (unit : List String) (st : PState) (c : Char) : PState :=
  match unit.filter (fun item => (getv st item).contains c) with
  | [item] => assign_value st item [c]
  | _ => st

/-- `__only_choice` (solver.py:182-201). -/
def only_choice (C : List (List String)) (D : List Char) (st : PState) : PState :=
  C.foldl (fun s unit => D.foldl (ocStep unit) s) st

/-- `for fun in self.__reduce_funcs: state = fun(state)` — apply every
reduction rule in order, each rule's output feeding the next. -/
def applyRules (rules : List (PState → PState)) (st : PState) : PState :=
  rules.foldl (fun s f => f s) st

/-- The `while not stalled` loop of `__reduce` (solver.py:203-229), with
fuel.  `some (false, st)` models `return False` (the dict having been
mutated in place to `st`); `some (true, st)` models returning the
state; `none` means the fuel ran out. -/
def reduceLoop (rules : List (PState → PState)) :
    Nat → PState → Option (Bool × PState)
  | 0, _ => none
  | fuel+1, st =>
    if hasEmpty (applyRules rules st) then some (false, applyRules rules st)
    else if solvedCount st = solvedCount (applyRules rules st) then
      some (true, applyRules rules st)
    else reduceLoop rules fuel (applyRules rules st)

/-- Lexicographic comparison of character lists by code point. -/
def charsLtB : List Char → List Char → Bool
  | [], [] => false
  | [], _ :: _ => true
  | _ :: _, [] => false
  | a :: as, b :: bs => if a < b then true else if b < a then false else charsLtB as bs

/-- Python string comparison (code-point lexicographic), as used by the
tuple `min` of `__search`. -/
def strLtB (a b : String) : Bool := charsLtB a.data b.data

/-- One comparison step of `min((len(state[item]), item) ...)`:
lexicographic on the `(length, name)` pair; on a full tie `min` keeps
the earlier element. -/
def betterVar (st : PState) (best v : String) : String :=
  if (getv st v).length < (getv st best).length ∨
      ((getv st v).length = (getv st best).length ∧ strLtB v best) then v else best

/-- The strict order on the `(len(state[item]), item)` tuples compared
by the `min` of `__search`: shorter candidate set first, ties broken by
code-point string order. -/
def pairLtP (st : PState) (v w : String) : Prop :=
  (getv st v).length < (getv st w).length ∨
    ((getv st v).length = (getv st w).length ∧ strLtB v w = true)

/-- The selection `_, s = min((len(state[item]), item) for item in X if
len(state[item]) > 1)` of `__search` (solver.py:242); `none` iff the
generator is empty (where Python would raise). -/
def pickVar (X : List String) (st : PState) : Option String :=
  match X.filter (fun v => 1 < (getv st v).length) with
  | [] => none
  | x :: xs => some (xs.foldl (betterVar st) x)

/-- One step of the `for val in state[s]` loop of `__search`: keep a
truthy attempt, discard a falsy one and try the next value; `none` (out
of fuel) is sticky. -/
def tryStep (g : Char → SS → Option (SR × PState × SS)) (acc : Option (SR × SS))
    (c : Char) : Option (SR × SS) :=
  match acc with
  | none => none
  | some (SR.found r, ss) => some (SR.found r, ss)
  | some (SR.fail, ss) =>
    match g c ss with
    | none => none
    | some (r, _, ss') => if truthy r then some (r, ss') else some (SR.fail, ss')

/-- The full `for val in state[s]` loop of `__search` (solver.py:246-251):
try each candidate value in order, returning the first truthy attempt,
with the counters threaded through failed attempts; `None` (= `fail`)
if the loop ends. -/
def tryFold (g : Char → SS → Option (SR × PState × SS)) (l : List Char) (ss : SS) :
    Option (SR × SS) :=
  l.foldl (tryStep g) (some (SR.fail, ss))

/-- `__search` (solver.py:231-251) with fuel.  The second component of a
`some` result is the final contents of the dict the caller passed in
(mutated in place by the top `__reduce` call; branches work on copies),
the third the updated counters. -/
def searchLoop (rules : List (PState → PState)) (X : List String) (rfuel : Nat) :
    Nat → PState → SS → Option (SR × PState × SS)
  | 0, _, _ => none
  | fuel+1, st, ss =>
    match reduceLoop rules rfuel st with
    | none => none
    | some (false, stm) => some (SR.fail, stm, (ss.1 + 1, ss.2))
    | some (true, st') =>
      if X.all (fun v => (getv st' v).length == 1) then
        some (SR.found st', st', (ss.1 + 1, ss.2))
      else
        match pickVar X st' with
        | none => some (SR.fail, st', (ss.1 + 1, ss.2))
        | some s =>
          match tryFold (fun c ssA => searchLoop rules X rfuel fuel (assign_value st' s [c]) ssA)
              (getv st' s) (ss.1 + 1, ss.2 + 1) with
          | none => none
          | some (r, ss') => some (r, st', ss')

/-- A `ConstraintSolver` instance: the constructor arguments
(solver.py:44-73) plus the mutable instance attributes.  `extra` is the
suffix a subclass appended to `reduce_functions` after the two built-in
rules. -/
structure Solver where
  X : List String
  D : List Char
  C : List (List String)
  peers : String → List String
  extra : List (PState → PState)
  internal_state : PState
  solved : Bool
  reduce_count : Nat
  search_count : Nat

/-- `self.__reduce_funcs`: the two built-in rules followed by any
registered extra rules. -/
def Solver.rules (s : Solver) : List (PState → PState) :=
  [eliminate s.peers, only_choice s.C s.D] ++ s.extra

/-- Total number of candidate symbols over all variables; the
termination measure for the search. -/
def mu (st : PState) : Nat :=
  (st.map (fun p => p.2.length)).sum

/-- `ConstraintSolver.__init__` (solver.py:44-73): package the arguments;
no validation of any kind is performed. -/
def ConstraintSolver_init (state : PState) (X : List String) (D : List Char)
    (C : List (List String)) (peers : String → List String) : Solver :=
  { X := X, D := D, C := C, peers := peers, extra := [], internal_state := state,
    solved := false, reduce_count := 0, search_count := 0 }

/-- `solve` (solver.py:253-268): reset both counters, search from the
internal state; on a truthy attempt store the solution and set the
solved flag; otherwise keep the (in-place mutated) dict and the old
flag.  `none` only if the fuel chosen here did not suffice (never, for
shrinking rules). -/
def solve (s : Solver) : Option (Bool × Solver) :=
  match searchLoop s.rules s.X (s.X.length + 1) (mu s.internal_state + 1)
      s.internal_state (0, 0) with
  | none => none
  | some (r, stm, ss) =>
    match r with
    | SR.found st =>
      if st.isEmpty then
        some (s.solved,
          { s with
            internal_state := stm
            reduce_count := ss.1
            search_count := ss.2 })
      else
        some (true,
          { s with
            internal_state := st
            solved := true
            reduce_count := ss.1
            search_count := ss.2 })
    | SR.fail =>
      some (s.solved,
        { s with
          internal_state := stm
          reduce_count := ss.1
          search_count := ss.2 })

/-! ## The Sudoku adapter (sudoku.py) -/

/-- Helper for `firstDedup`: drop the elements already seen. -/
def firstDedupAux {α : Type} [DecidableEq α] (seen : List α) : List α → List α
  | [] => []
  | x :: xs =>
    if x ∈ seen then firstDedupAux seen xs else x :: firstDedupAux (x :: seen) xs

/-- Keep the first occurrence of each element (the key order of a Python
`Counter` built from a list, and of a Python `set` built from a list up
to the unspecified set order). -/
def firstDedup {α : Type} [DecidableEq α] (l : List α) : List α :=
  firstDedupAux [] l

/-- The per-unit body of `naked_twins` (sudoku.py:230-256) for one twin
value: for each of its symbols, remove the symbol from every box of the
unit whose current value differs from the twin value. -/
def ntTwin (unit : List String) (st : PState) (twin : List Char) : PState :=
  twin.foldl
    (fun s num =>
      unit.foldl
        (fun s2 box =>
          if getv s2 box ≠ twin then
            assign_value s2 box ((getv s2 box).filter (fun ch => ch ≠ num))
          else s2)
        s)
    st

/-- Processing of one unit by `naked_twins`: find the values of length 2
held by exactly two boxes of the unit, then eliminate their symbols
from the other boxes. -/
def ntUnit (st : PState) (unit : List String) : PState :=
  let allPairs := (unit.filter (fun b => (getv st b).length == 2)).map (getv st)
  let twins := (firstDedup allPairs).filter (fun k => allPairs.count k == 2)
  twins.foldl (ntTwin unit) st

/-- `naked_twins` (sudoku.py:230-256). -/
def naked_twins (C : List (List String)) (st : PState) : PState :=
  C.foldl ntUnit st

/-- `__cross` (sudoku.py:104-106). -/
def cross (A B : List Char) : List String :=
  A.flatMap (fun a => B.map (fun b => String.mk [a, b]))

def sudokuRows : List Char := "ABCDEFGHI".toList

def sudokuCols : List Char := "123456789".toList

/-- `self.__boxes`: the 81 cell names. -/
def boxes : List String := cross sudokuRows sudokuCols

def rowUnits : List (List String) := sudokuRows.map (fun r => cross [r] sudokuCols)

def columnUnits : List (List String) := sudokuCols.map (fun c => cross sudokuRows [c])

def squareUnits : List (List String) :=
  [['A','B','C'], ['D','E','F'], ['G','H','I']].flatMap
    (fun rs => [['1','2','3'], ['4','5','6'], ['7','8','9']].map (fun cs => cross rs cs))

/-- The classic (non-diagonal) Sudoku unit list. -/
def sudokuUnits : List (List String) := rowUnits ++ columnUnits ++ squareUnits

/-- `peers = dict((s, set(sum(box_groups[s],[]))-set([s])) ...)`: all
co-members of any group containing `s` (set order fixed to first
occurrence; every use of the peer list is order-independent). -/
def peers_of (C : List (List String)) (s : String) : List String :=
  (firstDedup (C.filter (fun g => s ∈ g)).flatten).filter (fun b => b ≠ s)

/-- The per-character step of `__grid_values` (sudoku.py:130-168): a digit
stands for itself, `'.'` for the full alphabet, anything else is an
error (Python prints and returns `False`). -/
def gridChars : List Char → Option (List (List Char))
  | [] => some []
  | c :: rest =>
    if c ∈ sudokuCols then (gridChars rest).map (fun l => [c] :: l)
    else if c = '.' then (gridChars rest).map (fun l => sudokuCols :: l)
    else none

/-- `__grid_values` with `non_val = True`: parse the 81-character grid
string into the initial state `dict(zip(boxes, chars))`, or fail. -/
def grid_values (grid : List Char) : Option PState :=
  match gridChars grid with
  | none => none
  | some chars => if chars.length = 81 then some (boxes.zip chars) else none

/-- `Sudoku.__init__` (sudoku.py:43-102) reduced to its solver content:
on a parse failure the base initializer is skipped (Python leaves a
partially constructed object); otherwise build the instance and append
`naked_twins` to the reduction functions. -/
def Sudoku_init (grid : List Char) : Option Solver :=
  match grid_values grid with
  | none => none
  | some st =>
    some { ConstraintSolver_init st boxes sudokuCols sudokuUnits (peers_of sudokuUnits) with
      extra := [naked_twins sudokuUnits] }

/-! ## The map-coloring adapter (map.py) -/

def X_map : List String := ["WA", "NT", "SA", "QL", "NSW", "VT"]

def D_map : List Char := ['R', 'B', 'G']

def C_map : List (List String) :=
  [["WA", "NT", "SA"], ["NT", "SA", "QL"], ["SA", "QL", "NSW"], ["SA", "NSW", "VT"]]

/-- `state_setup` (map.py:102-131): populate every region with its given
initial value, or with the full color list; the keys are `X_map` in
order. -/
def state_setup (given : List (String × List Char)) : PState :=
  X_map.map (fun x => (x, (given.lookup x).getD D_map))

/-- `Australia.__init__` (map.py:30-100): the map-coloring instance. -/
def australia (given : List (String × List Char)) : Solver :=
  ConstraintSolver_init (state_setup given) X_map D_map C_map (peers_of C_map)

/-! ## Specification-side notions -/

/-- The key list of a state dict. -/
def keyList (st : PState) : List String := st.map Prod.fst

/-- `st'` refines `st` entrywise: same keys in the same order, every
value a sublist of the corresponding old value.  This is the shape of
every state transformation the solving rules perform. -/
def Shrinks (st' st : PState) : Prop :=
  List.Forall₂ (fun p q => p.1 = q.1 ∧ Sublist p.2 q.2) st' st

/-- A reduction rule that never grows any candidate set (and never
touches the key structure). -/
def ShrinkRule (f : PState → PState) : Prop :=
  ∀ st, Shrinks (f st) st

/-- A full assignment `a` is compatible with state `st` on the variable
list `X`: every variable's assigned symbol is among its candidates. -/
def Within (X : List String) (a : String → Char) (st : PState) : Prop :=
  ∀ v ∈ X, a v ∈ getv st v

/-- A full assignment satisfies the all-different constraints: in every
group, distinct variables get distinct symbols. -/
def Consistent (C : List (List String)) (a : String → Char) : Prop :=
  ∀ g ∈ C, ∀ u ∈ g, ∀ v ∈ g, u ≠ v → a u ≠ a v

/-- Well-formedness of a problem description, as the spec's construction
contract guarantees it: groups mention only known variables, are
duplicate-free, and have exactly alphabet size; the alphabet is
duplicate-free; the peer structure is exactly co-membership in some
group. -/
structure Hyps (X : List String) (D : List Char) (C : List (List String))
    (peers : String → List String) : Prop where
  groups_sub : ∀ g ∈ C, ∀ v ∈ g, v ∈ X
  groups_nodup : ∀ g ∈ C, g.Nodup
  groups_len : ∀ g ∈ C, g.length = D.length
  dnodup : D.Nodup
  mem_peers : ∀ g ∈ C, ∀ u ∈ g, ∀ v ∈ g, u ≠ v → v ∈ peers u
  peers_mem : ∀ u ∈ X, ∀ v ∈ peers u, ∃ g ∈ C, u ∈ g ∧ v ∈ g ∧ u ≠ v

/-- The propagation-engine loop as the spec words it: record the solved
count, run every rule in order, recompute the count; stop with the
distinguished infeasible result as soon as a pass leaves an empty
candidate set, stop with the pass result once the count is unchanged
over a pass, and otherwise iterate. -/
inductive ReduceRel (rules : List (PState → PState)) : PState → Bool × PState → Prop where
  | infeasible {st : PState} :
      hasEmpty (applyRules rules st) = true →
      ReduceRel rules st (false, applyRules rules st)
  | stalled {st : PState} :
      hasEmpty (applyRules rules st) = false →
      solvedCount st = solvedCount (applyRules rules st) →
      ReduceRel rules st (true, applyRules rules st)
  | step {st : PState} {r : Bool × PState} :
      hasEmpty (applyRules rules st) = false →
      solvedCount st ≠ solvedCount (applyRules rules st) →
      ReduceRel rules (applyRules rules st) r →
      ReduceRel rules st r

/-- The candidate-trial loop as the spec words it: try each value in
order, return the first truthy recursive success, fail the branch when
the values are exhausted. -/
def trySpec (g : Char → SS → Option (SR × PState × SS)) : List Char → SS → Option (SR × SS)
  | [], ss => some (SR.fail, ss)
  | c :: cs, ss =>
    match g c ss with
    | none => none
    | some (r, _, ss') => if truthy r then some (r, ss') else trySpec g cs ss'

/-! ## Concrete instances used as witnesses -/

/-- The fresh Australia instance with no initial assignment. -/
def aussie : Solver := australia []

/-- An unsolvable Australia instance: two neighbouring regions fixed to
the same color. -/
def aussieBad : Solver := australia [("WA", ['R']), ("NT", ['R'])]

/-- An Australia instance with one region fixed. -/
def aussieWA : Solver := australia [("WA", ['R'])]

/-- The instance state after the first successful `solve` on `aussie`. -/
def aussieAfter : Solver := ((solve aussie).getD (true, aussie)).2

/-- A deliberately malformed problem: the single constraint group
references the unknown variable `ZZ`. -/
def badProblem : Solver :=
  ConstraintSolver_init [("WA", ['R', 'B'])] ["WA"] ['R', 'B'] [["WA", "ZZ"]]
    (peers_of [["WA", "ZZ"]])

/-! ## Basic lemmas: states, `setv`, `getv`, `Shrinks` -/

theorem getv_nil (v : String) : getv [] v = [] := rfl

theorem getv_cons (k : String) (w : List Char) (rest : PState) (v : String) :
    getv ((k, w) :: rest) v = if k = v then w else getv rest v := by
  by_cases h : k = v
  · subst h; simp [getv, List.lookup_cons]
  · have hb : (v == k) = false := beq_false_of_ne (fun hh => h hh.symm)
    simp [getv, List.lookup_cons, hb, h]

theorem getv_setv (st : PState) (i : String) (nv : List Char) (v : String) :
    getv (setv st i nv) v = if v = i then nv else getv st v := by
  induction st with
  | nil =>
    simp only [setv]
    rw [getv_cons, getv_nil]
    by_cases h : v = i
    · subst h; simp
    · rw [if_neg (fun hh => h hh.symm), if_neg h]
  | cons p rest ih =>
    obtain ⟨k, w⟩ := p
    by_cases hki : k = i
    · subst hki
      have hset : setv ((k, w) :: rest) k nv = (k, nv) :: rest := by simp [setv]
      rw [hset, getv_cons, getv_cons]
      by_cases hv : k = v
      · rw [if_pos hv, if_pos hv.symm]
      · rw [if_neg hv, if_neg (fun hh => hv hh.symm), if_neg hv]
    · simp only [setv, if_neg hki]
      rw [getv_cons, getv_cons, ih]
      by_cases hv : k = v
      · have hvi : ¬v = i := fun hh => hki (hv.trans hh)
        rw [if_pos hv, if_neg hvi, if_pos hv]
      · rw [if_neg hv, if_neg hv]

theorem mem_keyList_getv {st : PState} {i : String} (h : i ∈ keyList st) :
    (i, getv st i) ∈ st := by
  induction st with
  | nil => simp [keyList] at h
  | cons p rest ih =>
    obtain ⟨k, w⟩ := p
    by_cases hk : k = i
    · subst hk; simp [getv_cons]
    · have h' : i ∈ keyList rest := by
        simpa [keyList, Ne.symm hk] using h
      right
      simpa [getv_cons, hk] using ih h'

theorem getv_ne_nil_mem {st : PState} {i : String} (h : getv st i ≠ []) :
    i ∈ keyList st := by
  induction st with
  | nil => exact absurd rfl h
  | cons p rest ih =>
    obtain ⟨k, w⟩ := p
    by_cases hk : k = i
    · simp [keyList, hk]
    · rw [getv_cons, if_neg hk] at h
      simpa [keyList, hk] using Or.inr (ih h)

theorem hasEmpty_of_getv_nil {st : PState} {b : String}
    (hb : b ∈ keyList st) (h : getv st b = []) : hasEmpty st = true := by
  have := mem_keyList_getv hb
  rw [h] at this
  rw [hasEmpty, List.any_eq_true]
  exact ⟨(b, []), this, rfl⟩

theorem keyList_setv_mem (st : PState) (i : String) (nv : List Char)
    (h : i ∈ keyList st) : keyList (setv st i nv) = keyList st := by
  induction st with
  | nil => simp [keyList] at h
  | cons p rest ih =>
    obtain ⟨k, w⟩ := p
    by_cases hki : k = i
    · simp [setv, hki, keyList]
    · have h' : i ∈ keyList rest := by
        simpa [keyList, Ne.symm hki] using h
      have hrec := ih h'
      simp only [CSolver.keyList] at hrec
      simp [setv, hki, keyList, hrec]

theorem sublist_singleton_cases {l : List Char} {c : Char} (h : Sublist l [c]) :
    l = [] ∨ l = [c] := by
  simpa using h

theorem sublist_of_singleton_ne_nil {l m : List Char} (h : Sublist l m)
    (hm : m.length = 1) (hl : l ≠ []) : l = m := by
  obtain ⟨c, rfl⟩ := List.length_eq_one.mp hm
  rcases sublist_singleton_cases h with h1 | h1
  · exact absurd h1 hl
  · exact h1

theorem Shrinks.refl (st : PState) : Shrinks st st := by
  rw [Shrinks, List.forall₂_same]
  exact fun p _ => ⟨rfl, List.Sublist.refl _⟩

theorem Shrinks.trans {st₂ st₁ st₀ : PState} (h₂ : Shrinks st₂ st₁)
    (h₁ : Shrinks st₁ st₀) : Shrinks st₂ st₀ := by
  induction h₁ generalizing st₂ with
  | nil => cases h₂; exact List.Forall₂.nil
  | cons hpq _tail ih =>
    cases h₂ with
    | cons hr htail =>
      exact List.Forall₂.cons ⟨hr.1.trans hpq.1, hr.2.trans hpq.2⟩ (ih htail)

theorem Shrinks.keyList {st' st : PState} (h : Shrinks st' st) :
    keyList st' = keyList st := by
  induction h with
  | nil => rfl
  | cons hpq _ ih =>
    simp only [CSolver.keyList, List.map_cons] at ih ⊢
    rw [hpq.1, ih]

theorem Shrinks.length_eq {st' st : PState} (h : Shrinks st' st) :
    st'.length = st.length :=
  List.Forall₂.length_eq h

theorem Shrinks.getv {st' st : PState} (h : Shrinks st' st) (v : String) :
    Sublist (getv st' v) (getv st v) := by
  induction h with
  | nil => exact List.Sublist.refl _
  | @cons p q l₁ l₂ hpq htail ih =>
    obtain ⟨k, w⟩ := q
    obtain ⟨k', w'⟩ := p
    obtain ⟨hk, hw⟩ := hpq
    simp only at hk
    subst hk
    by_cases hv : k' = v
    · rw [getv_cons, getv_cons, if_pos hv, if_pos hv]; exact hw
    · rw [getv_cons, getv_cons, if_neg hv, if_neg hv]; exact ih

theorem Shrinks.mu_le {st' st : PState} (h : Shrinks st' st) : mu st' ≤ mu st := by
  induction h with
  | nil => exact Nat.le.refl
  | cons hpq _ ih =>
    simp only [mu, List.map_cons, List.sum_cons]
    exact Nat.add_le_add hpq.2.length_le ih

theorem Shrinks.hasEmpty_mono {st' st : PState} (h : Shrinks st' st)
    (he : hasEmpty st = true) : hasEmpty st' = true := by
  induction h with
  | nil => simp [hasEmpty] at he
  | cons hpq _ ih =>
    simp only [hasEmpty, List.any_cons, Bool.or_eq_true, beq_iff_eq] at he ⊢
    rcases he with he | he
    · left
      have hq := List.length_eq_zero.mp he
      have h2 := hpq.2
      rw [hq] at h2
      simp [List.sublist_nil.mp h2]
    · right; exact ih he

theorem Shrinks.solvedCount_le {st' st : PState} (h : Shrinks st' st)
    (he : hasEmpty st' = false) : solvedCount st ≤ solvedCount st' := by
  induction h with
  | @cons p q l₁ l₂ hpq htail ih =>
    simp only [hasEmpty, List.any_cons, Bool.or_eq_false_iff] at he
    obtain ⟨he1, he2⟩ := he
    have hp2 : p.2 ≠ [] := by
      intro hnil; simp [hnil] at he1
    have ihe : hasEmpty l₁ = false := by
      simpa [hasEmpty] using he2
    simp only [solvedCount, List.filter_cons]
    by_cases hq : q.2.length = 1
    · have hp : p.2.length = 1 := by
        rw [sublist_of_singleton_ne_nil hpq.2 hq hp2]; exact hq
      simp only [hq, hp, beq_self_eq_true, if_true, List.length_cons]
      exact Nat.succ_le_succ (ih ihe)
    · by_cases hp : p.2.length = 1
      · simp only [beq_iff_eq, hq, hp, if_true, if_false, List.length_cons]
        exact Nat.le_succ_of_le (ih ihe)
      · simp only [beq_iff_eq, hq, hp, if_false]
        exact ih ihe
  | nil => exact Nat.le.refl

theorem solvedCount_le_length (st : PState) : solvedCount st ≤ st.length :=
  List.length_filter_le _ _

theorem solvedCount_eq_length {st : PState} (h : solvedCount st = st.length) :
    ∀ p ∈ st, p.2.length = 1 := by
  have hfil : st.filter (fun p => p.2.length == 1) = st :=
    List.Sublist.eq_of_length (List.filter_sublist st) h
  intro p hp
  have hmem : p ∈ st.filter (fun p => p.2.length == 1) := by rw [hfil]; exact hp
  simpa using (List.mem_filter.mp hmem).2

theorem getv_length_one {st : PState} (hall : ∀ p ∈ st, p.2.length = 1)
    {v : String} (hv : v ∈ keyList st) : (getv st v).length = 1 :=
  hall (v, getv st v) (mem_keyList_getv hv)

/-! ## The reduction rules only shrink candidate sets -/

theorem setv_shrinks {st : PState} {i : String} {nv : List Char}
    (h : Sublist nv (getv st i)) (hne : getv st i ≠ []) : Shrinks (setv st i nv) st := by
  induction st with
  | nil => exact absurd rfl hne
  | cons p rest ih =>
    obtain ⟨k, w⟩ := p
    by_cases hk : k = i
    · subst hk
      rw [getv_cons, if_pos rfl] at h
      simp only [setv, if_pos rfl]
      exact List.Forall₂.cons ⟨rfl, h⟩ (Shrinks.refl rest)
    · rw [getv_cons, if_neg hk] at h hne
      simp only [setv, if_neg hk]
      exact List.Forall₂.cons ⟨rfl, List.Sublist.refl w⟩ (ih h hne)

theorem assign_shrinks (st : PState) (i : String) {nv : List Char}
    (h : Sublist nv (getv st i)) : Shrinks (assign_value st i nv) st := by
  rw [assign_value]
  by_cases heq : getv st i = nv
  · rw [if_pos heq]; exact Shrinks.refl st
  · rw [if_neg heq]
    refine setv_shrinks h (fun h0 => ?_)
    rw [h0] at h heq
    exact heq (List.sublist_nil.mp h).symm

theorem foldl_shrinks {β : Type} (f : PState → β → PState) (l : List β) (st : PState)
    (hf : ∀ s x, x ∈ l → Shrinks (f s x) s) : Shrinks (l.foldl f st) st := by
  induction l generalizing st with
  | nil => exact Shrinks.refl st
  | cons x xs ih =>
    rw [List.foldl_cons]
    exact (ih _ (fun s y hy => hf s y (List.mem_cons_of_mem _ hy))).trans
      (hf st x (List.mem_cons_self _ _))

theorem elimStep_shrinks (peers : String → List String) (st : PState) (item : String) :
    Shrinks (elimStep peers st item) st := by
  rw [elimStep]
  split
  · exact foldl_shrinks _ _ _ (fun s p _ => assign_shrinks s p (List.filter_sublist _))
  · exact Shrinks.refl st

theorem eliminate_shrinks (peers : String → List String) (st : PState) :
    Shrinks (eliminate peers st) st := by
  rw [eliminate]
  exact foldl_shrinks _ _ _ (fun s item _ => elimStep_shrinks peers s item)

theorem ocStep_shrinks (unit : List String) (st : PState) (c : Char) :
    Shrinks (ocStep unit st c) st := by
  rw [ocStep]
  split
  · rename_i item heq
    have hmem : item ∈ unit.filter (fun item => (getv st item).contains c) := by
      rw [heq]; exact List.mem_singleton.mpr rfl
    have hc : c ∈ getv st item := by
      have := (List.mem_filter.mp hmem).2
      simpa using this
    exact assign_shrinks st item (List.singleton_sublist.mpr hc)
  · exact Shrinks.refl st

theorem only_choice_shrinks (C : List (List String)) (D : List Char) (st : PState) :
    Shrinks (only_choice C D st) st := by
  rw [only_choice]
  exact foldl_shrinks _ _ _
    (fun s unit _ => foldl_shrinks _ _ _ (fun s2 c _ => ocStep_shrinks unit s2 c))

theorem ntTwin_shrinks (unit : List String) (st : PState) (twin : List Char) :
    Shrinks (ntTwin unit st twin) st := by
  rw [ntTwin]
  refine foldl_shrinks _ _ _ (fun s num _ => foldl_shrinks _ _ _ (fun s2 box _ => ?_))
  by_cases hb : getv s2 box ≠ twin
  · rw [if_pos hb]; exact assign_shrinks _ _ (List.filter_sublist _)
  · rw [if_neg hb]; exact Shrinks.refl s2

theorem ntUnit_shrinks (st : PState) (unit : List String) :
    Shrinks (ntUnit st unit) st := by
  rw [ntUnit]
  exact foldl_shrinks _ _ _ (fun s twin _ => ntTwin_shrinks unit s twin)

theorem naked_twins_shrinks (C : List (List String)) (st : PState) :
    Shrinks (naked_twins C st) st := by
  rw [naked_twins]
  exact foldl_shrinks _ _ _ (fun s unit _ => ntUnit_shrinks s unit)

theorem applyRules_shrinks {rules : List (PState → PState)}
    (h : ∀ f ∈ rules, ShrinkRule f) (st : PState) : Shrinks (applyRules rules st) st := by
  rw [applyRules]
  exact foldl_shrinks _ _ _ (fun s f hf => h f hf s)

theorem rules_shrink {s : Solver} (hx : ∀ f ∈ s.extra, ShrinkRule f) :
    ∀ f ∈ s.rules, ShrinkRule f := by
  intro f hf
  rw [Solver.rules] at hf
  rcases List.mem_append.mp hf with hf | hf
  · simp only [List.mem_cons, List.not_mem_nil, or_false] at hf
    rcases hf with h1 | h1
    · subst h1; exact fun st => eliminate_shrinks _ st
    · subst h1; exact fun st => only_choice_shrinks _ _ st
  · exact hx f hf

/-! ## Lemmas about the propagation loop `reduceLoop` -/

theorem reduceLoop_rel {rules : List (PState → PState)} :
    ∀ {fuel : Nat} {st : PState} {r : Bool × PState},
      reduceLoop rules fuel st = some r → ReduceRel rules st r := by
  intro fuel
  induction fuel with
  | zero => intro st r h; simp [reduceLoop] at h
  | succ n ih =>
    intro st r h
    rw [reduceLoop] at h
    by_cases he : hasEmpty (applyRules rules st) = true
    · rw [if_pos he] at h
      cases h
      exact ReduceRel.infeasible he
    · have he' : hasEmpty (applyRules rules st) = false := by simpa using he
      rw [if_neg he] at h
      by_cases hc : solvedCount st = solvedCount (applyRules rules st)
      · rw [if_pos hc] at h
        cases h
        exact ReduceRel.stalled he' hc
      · rw [if_neg hc] at h
        exact ReduceRel.step he' hc (ih h)

theorem ReduceRel_true {rules : List (PState → PState)} {st : PState} {r : Bool × PState}
    (h : ReduceRel rules st r) (hb : r.1 = true) :
    hasEmpty r.2 = false ∧ ∃ st₀, r.2 = applyRules rules st₀ ∧
      solvedCount st₀ = solvedCount r.2 := by
  induction h with
  | infeasible he => simp at hb
  | stalled he hc => exact ⟨he, _, rfl, hc⟩
  | step he hc hrec ih => exact ih hb

theorem ReduceRel_false {rules : List (PState → PState)} {st : PState} {r : Bool × PState}
    (h : ReduceRel rules st r) (hb : r.1 = false) : hasEmpty r.2 = true := by
  induction h with
  | infeasible he => exact he
  | stalled he hc => simp at hb
  | step he hc hrec ih => exact ih hb

theorem reduceLoop_shrinks {rules : List (PState → PState)}
    (hr : ∀ f ∈ rules, ShrinkRule f) :
    ∀ {fuel : Nat} {st : PState} {b : Bool} {st' : PState},
      reduceLoop rules fuel st = some (b, st') → Shrinks st' st := by
  intro fuel
  induction fuel with
  | zero => intro st b st' h; simp [reduceLoop] at h
  | succ n ih =>
    intro st b st' h
    rw [reduceLoop] at h
    by_cases he : hasEmpty (applyRules rules st) = true
    · rw [if_pos he] at h
      cases h
      exact applyRules_shrinks hr st
    · rw [if_neg he] at h
      by_cases hc : solvedCount st = solvedCount (applyRules rules st)
      · rw [if_pos hc] at h
        cases h
        exact applyRules_shrinks hr st
      · rw [if_neg hc] at h
        exact (ih h).trans (applyRules_shrinks hr st)

theorem reduceLoop_adequate {rules : List (PState → PState)}
    (hr : ∀ f ∈ rules, ShrinkRule f) :
    ∀ (fuel : Nat) (st : PState), st.length + 1 - solvedCount st ≤ fuel →
      ∃ r, reduceLoop rules fuel st = some r := by
  intro fuel
  induction fuel with
  | zero =>
    intro st h
    have := solvedCount_le_length st
    omega
  | succ n ih =>
    intro st h
    rw [reduceLoop]
    by_cases he : hasEmpty (applyRules rules st) = true
    · exact ⟨_, by rw [if_pos he]⟩
    · by_cases hc : solvedCount st = solvedCount (applyRules rules st)
      · exact ⟨_, by rw [if_neg he, if_pos hc]⟩
      · have he' : hasEmpty (applyRules rules st) = false := by simpa using he
        have hshr := applyRules_shrinks hr st
        have hmono := hshr.solvedCount_le he'
        have hlen := hshr.length_eq
        have hlt : solvedCount st < solvedCount (applyRules rules st) :=
          lt_of_le_of_ne hmono hc
        obtain ⟨r, hrr⟩ := ih (applyRules rules st) (by omega)
        exact ⟨r, by rw [if_neg he, if_neg hc]; exact hrr⟩

/-! ## Lemmas about the candidate-trial loop `tryFold` -/

theorem tryFold_from_none (g : Char → SS → Option (SR × PState × SS)) (l : List Char) :
    l.foldl (tryStep g) none = none := by
  induction l with
  | nil => rfl
  | cons c cs ih => rw [List.foldl_cons]; exact ih

theorem tryFold_absorb (g : Char → SS → Option (SR × PState × SS)) (l : List Char)
    (r : PState) (ss : SS) :
    l.foldl (tryStep g) (some (SR.found r, ss)) = some (SR.found r, ss) := by
  induction l with
  | nil => rfl
  | cons c cs ih => rw [List.foldl_cons]; exact ih

theorem tryFold_found_src {g : Char → SS → Option (SR × PState × SS)} :
    ∀ {l : List Char} {ss ssf : SS} {r : PState},
      tryFold g l ss = some (SR.found r, ssf) →
      ∃ c ∈ l, ∃ ssA stx, g c ssA = some (SR.found r, stx, ssf) := by
  intro l
  induction l with
  | nil => intro ss ssf r h; rw [tryFold] at h; cases h
  | cons c cs ih =>
    intro ss ssf r h
    rw [tryFold, List.foldl_cons] at h
    cases hg : g c ss with
    | none =>
      rw [show tryStep g (some (SR.fail, ss)) c = none by rw [tryStep]; rw [hg]] at h
      rw [tryFold_from_none] at h
      cases h
    | some v =>
      obtain ⟨r', stx, ss'⟩ := v
      by_cases ht : truthy r' = true
      · rw [show tryStep g (some (SR.fail, ss)) c = some (r', ss') by
          rw [tryStep]; rw [hg]; simp [ht]] at h
        cases r' with
        | found r'' =>
          rw [tryFold_absorb] at h
          cases h
          exact ⟨c, List.mem_cons_self _ _, ss, stx, hg⟩
        | fail => simp [truthy] at ht
      · rw [show tryStep g (some (SR.fail, ss)) c = some (SR.fail, ss') by
          rw [tryStep]; rw [hg]; simp [ht]] at h
        obtain ⟨c', hc', hrest⟩ := ih h
        exact ⟨c', List.mem_cons_of_mem _ hc', hrest⟩

theorem tryFold_some {g : Char → SS → Option (SR × PState × SS)} :
    ∀ {l : List Char} (ss : SS),
      (∀ c ∈ l, ∀ ssA, ∃ v, g c ssA = some v) →
      ∃ w, tryFold g l ss = some w := by
  intro l
  induction l with
  | nil => intro ss _; exact ⟨_, rfl⟩
  | cons c cs ih =>
    intro ss hall
    obtain ⟨⟨r', stx, ss'⟩, hg⟩ := hall c (List.mem_cons_self _ _) ss
    rw [tryFold, List.foldl_cons]
    by_cases ht : truthy r' = true
    · rw [show tryStep g (some (SR.fail, ss)) c = some (r', ss') by
        rw [tryStep]; rw [hg]; simp [ht]]
      cases r' with
      | found r'' => rw [tryFold_absorb]; exact ⟨_, rfl⟩
      | fail => simp [truthy] at ht
    · rw [show tryStep g (some (SR.fail, ss)) c = some (SR.fail, ss') by
        rw [tryStep]; rw [hg]; simp [ht]]
      exact ih ss' (fun c2 hc2 ssA => hall c2 (List.mem_cons_of_mem _ hc2) ssA)

theorem tryFold_complete {g : Char → SS → Option (SR × PState × SS)} :
    ∀ {l : List Char} {ss : SS},
      (∀ c ∈ l, ∀ ssA, ∃ v, g c ssA = some v) →
      (∃ c ∈ l, ∀ ssA, ∃ r stx ssf, g c ssA = some (SR.found r, stx, ssf) ∧ r ≠ []) →
      ∃ r ssf, tryFold g l ss = some (SR.found r, ssf) := by
  intro l
  induction l with
  | nil => intro ss _ hw; simp at hw
  | cons c cs ih =>
    intro ss hall hw
    obtain ⟨⟨r', stx, ss'⟩, hg⟩ := hall c (List.mem_cons_self _ _) ss
    rw [tryFold, List.foldl_cons]
    by_cases ht : truthy r' = true
    · rw [show tryStep g (some (SR.fail, ss)) c = some (r', ss') by
        rw [tryStep]; rw [hg]; simp [ht]]
      cases r' with
      | found r'' => rw [tryFold_absorb]; exact ⟨r'', ss', rfl⟩
      | fail => simp [truthy] at ht
    · rw [show tryStep g (some (SR.fail, ss)) c = some (SR.fail, ss') by
        rw [tryStep]; rw [hg]; simp [ht]]
      obtain ⟨cw, hcw, hsucc⟩ := hw
      have hcw' : cw ∈ cs := by
        rcases List.mem_cons.mp hcw with hcc | hcc
        · exfalso
          subst hcc
          obtain ⟨r0, stx0, ssf0, hg0, hr0⟩ := hsucc ss
          rw [hg] at hg0
          cases hg0
          simp [truthy, hr0] at ht
        · exact hcc
      exact ih (fun c2 hc2 ssA => hall c2 (List.mem_cons_of_mem _ hc2) ssA)
        ⟨cw, hcw', hsucc⟩

/-! ## Lemmas about branch-variable selection and the measure `mu` -/

theorem betterVar_choice (st : PState) (b v : String) :
    betterVar st b v = b ∨ betterVar st b v = v := by
  rw [betterVar]; split
  · right; rfl
  · left; rfl

theorem foldl_betterVar_mem (st : PState) (x : String) (xs : List String) :
    xs.foldl (betterVar st) x ∈ x :: xs := by
  induction xs generalizing x with
  | nil => exact List.mem_singleton.mpr rfl
  | cons y ys ih =>
    rw [List.foldl_cons]
    rcases betterVar_choice st x y with h | h <;> rw [h]
    · have h1 := ih x
      simp only [List.mem_cons] at h1 ⊢
      tauto
    · have h1 := ih y
      simp only [List.mem_cons] at h1 ⊢
      tauto

theorem pickVar_props {X : List String} {st : PState} {s : String}
    (h : pickVar X st = some s) : s ∈ X ∧ 1 < (getv st s).length := by
  rw [pickVar] at h
  cases hf : X.filter (fun v => 1 < (getv st v).length) with
  | nil => rw [hf] at h; cases h
  | cons x xs =>
    rw [hf] at h
    injection h with h
    subst h
    have hmem : xs.foldl (betterVar st) x ∈
        X.filter (fun v => 1 < (getv st v).length) := by
      rw [hf]; exact foldl_betterVar_mem st x xs
    have := List.mem_filter.mp hmem
    exact ⟨this.1, by simpa using this.2⟩

theorem pickVar_some_of_exists {X : List String} {st : PState}
    (hex : ∃ v ∈ X, 1 < (getv st v).length) : ∃ s, pickVar X st = some s := by
  rw [pickVar]
  cases hf : X.filter (fun v => 1 < (getv st v).length) with
  | nil =>
    obtain ⟨v, hv, hlen⟩ := hex
    have hmem : v ∈ X.filter (fun v => 1 < (getv st v).length) :=
      List.mem_filter.mpr ⟨hv, by simpa using hlen⟩
    rw [hf] at hmem
    cases hmem
  | cons x xs => exact ⟨_, rfl⟩

theorem mu_setv_lt {st : PState} {i : String} {nv : List Char}
    (hmem : i ∈ keyList st) (hlt : nv.length < (getv st i).length) :
    mu (setv st i nv) < mu st := by
  induction st with
  | nil => simp [keyList] at hmem
  | cons p rest ih =>
    obtain ⟨k, w⟩ := p
    by_cases hk : k = i
    · subst hk
      rw [getv_cons, if_pos rfl] at hlt
      simp only [setv, if_pos rfl, mu, List.map_cons, List.sum_cons]
      exact Nat.add_lt_add_right hlt _
    · have hmem' : i ∈ keyList rest := by simpa [keyList, Ne.symm hk] using hmem
      rw [getv_cons, if_neg hk] at hlt
      have hrec := ih hmem' hlt
      simp only [mu] at hrec
      simp only [setv, if_neg hk, mu, List.map_cons, List.sum_cons]
      exact Nat.add_lt_add_left hrec _

theorem mu_assign_lt {st : PState} {s : String} {c : Char}
    (hmem : s ∈ keyList st) (hlen : 1 < (getv st s).length) :
    mu (assign_value st s [c]) < mu st := by
  rw [assign_value]
  have hne : ¬getv st s = [c] := by
    intro h; rw [h] at hlen; simp at hlen
  rw [if_neg hne]
  exact mu_setv_lt hmem (by simpa using hlen)

/-! ## The main structural facts about `searchLoop` -/

theorem searchLoop_found_main {rules : List (PState → PState)} {X : List String}
    {rfuel : Nat} (hr : ∀ f ∈ rules, ShrinkRule f) :
    ∀ {fuel : Nat} {st : PState} {ss : SS} {r stx : PState} {ss' : SS},
      searchLoop rules X rfuel fuel st ss = some (SR.found r, stx, ss') →
      Shrinks r st ∧ (∀ v ∈ X, (getv r v).length = 1) ∧ hasEmpty r = false ∧
        ∃ st₀, r = applyRules rules st₀ ∧ solvedCount st₀ = solvedCount r := by
  intro fuel
  induction fuel with
  | zero => intro st ss r stx ss' h; simp [searchLoop] at h
  | succ n ih =>
    intro st ss r stx ss' h
    rw [searchLoop] at h
    cases hred : reduceLoop rules rfuel st with
    | none => rw [hred] at h; cases h
    | some v =>
      obtain ⟨b, st'⟩ := v
      rw [hred] at h
      cases b with
      | false => simp at h
      | true =>
        dsimp only at h
        by_cases hall : (X.all fun v => (getv st' v).length == 1) = true
        · rw [if_pos hall] at h
          cases h
          refine ⟨reduceLoop_shrinks hr hred, ?_, ?_⟩
          · intro v hv
            have := List.all_eq_true.mp hall v hv
            simpa using this
          · exact ReduceRel_true (reduceLoop_rel hred) rfl
        · rw [if_neg hall] at h
          cases hpick : pickVar X st' with
          | none => rw [hpick] at h; simp at h
          | some s =>
            rw [hpick] at h
            dsimp only at h
            cases htf : tryFold
                (fun c ssA => searchLoop rules X rfuel n (assign_value st' s [c]) ssA)
                (getv st' s) (ss.1 + 1, ss.2 + 1) with
            | none => rw [htf] at h; cases h
            | some w =>
              obtain ⟨rr, ss2⟩ := w
              rw [htf] at h
              simp only [Option.some.injEq, Prod.mk.injEq] at h
              obtain ⟨hrr, hstx, hss⟩ := h
              subst hrr
              obtain ⟨c, hc, ssA, stx2, hgc⟩ := tryFold_found_src htf
              have hmain := ih hgc
              refine ⟨?_, hmain.2.1, hmain.2.2⟩
              have h1 : Shrinks (assign_value st' s [c]) st' :=
                assign_shrinks st' s (List.singleton_sublist.mpr hc)
              exact (hmain.1.trans h1).trans (reduceLoop_shrinks hr hred)

theorem searchLoop_adequate (rules : List (PState → PState)) (X : List String)
    (rfuel : Nat) (hr : ∀ f ∈ rules, ShrinkRule f) :
    ∀ (fuel : Nat) (st : PState) (ss : SS), mu st < fuel → st.length < rfuel →
      ∃ out, searchLoop rules X rfuel fuel st ss = some out := by
  intro fuel
  induction fuel with
  | zero => intro st ss h _; omega
  | succ n ih =>
    intro st ss hmu hlen
    rw [searchLoop]
    obtain ⟨⟨b, st'⟩, hred⟩ := reduceLoop_adequate hr rfuel st (by omega)
    rw [hred]
    cases b with
    | false => exact ⟨_, rfl⟩
    | true =>
      dsimp only
      by_cases hall : (X.all fun v => (getv st' v).length == 1) = true
      · rw [if_pos hall]; exact ⟨_, rfl⟩
      · rw [if_neg hall]
        cases hpick : pickVar X st' with
        | none => exact ⟨_, rfl⟩
        | some s =>
          dsimp only
          have hshr := reduceLoop_shrinks hr hred
          have hprops := pickVar_props hpick
          have hsmem : s ∈ keyList st' := getv_ne_nil_mem (by
            intro h0
            rw [h0] at hprops
            simp at hprops)
          have hcall : ∀ c ∈ getv st' s, ∀ ssA,
              ∃ v, searchLoop rules X rfuel n (assign_value st' s [c]) ssA = some v := by
            intro c hc ssA
            have hasg : Shrinks (assign_value st' s [c]) st' :=
              assign_shrinks st' s (List.singleton_sublist.mpr hc)
            apply ih
            · have h1 : mu (assign_value st' s [c]) < mu st' :=
                mu_assign_lt hsmem hprops.2
              have h2 : mu st' ≤ mu st := hshr.mu_le
              omega
            · have h1 : (assign_value st' s [c]).length = st'.length := hasg.length_eq
              have h2 : st'.length = st.length := hshr.length_eq
              omega
          obtain ⟨w, hw⟩ := tryFold_some (ss.1 + 1, ss.2 + 1) hcall
          rw [hw]
          exact ⟨_, rfl⟩

/-! ## A stalled, fully-solved pass state is constraint-consistent -/

theorem getv_assign (st : PState) (i : String) (nv : List Char) (v : String) :
    getv (assign_value st i nv) v = if v = i then nv else getv st v := by
  rw [assign_value]
  by_cases h : getv st i = nv
  · rw [if_pos h]
    by_cases hv : v = i
    · rw [if_pos hv, hv, h]
    · rw [if_neg hv]
  · rw [if_neg h, getv_setv]

theorem filter_ne_of_sublist_singleton {l : List Char} {c : Char} (h : Sublist l [c]) :
    l.filter (fun ch => ch ≠ c) = [] := by
  rcases sublist_singleton_cases h with h1 | h1 <;> subst h1 <;> simp

theorem elim_peer_fold_empties {c : Char} :
    ∀ {plist : List String} {σ : PState} {b : String},
      b ∈ plist → b ∈ keyList σ → Sublist (getv σ b) [c] →
      hasEmpty (plist.foldl
        (fun s p => assign_value s p ((getv s p).filter (fun ch => ch ≠ c))) σ) = true := by
  intro plist
  induction plist with
  | nil => intro σ b hb; simp at hb
  | cons p ps ih =>
    intro σ b hb hbk hbsub
    rw [List.foldl_cons]
    have hshr : Shrinks (assign_value σ p ((getv σ p).filter (fun ch => ch ≠ c))) σ :=
      assign_shrinks σ p (List.filter_sublist _)
    rcases List.mem_cons.mp hb with hbp | hbp
    · subst hbp
      have hempty : getv (assign_value σ b ((getv σ b).filter (fun ch => ch ≠ c))) b = [] := by
        rw [getv_assign, if_pos rfl]
        exact filter_ne_of_sublist_singleton hbsub
      have h1 : hasEmpty (assign_value σ b ((getv σ b).filter (fun ch => ch ≠ c))) = true :=
        hasEmpty_of_getv_nil (by rw [hshr.keyList]; exact hbk) hempty
      have h2 := foldl_shrinks
        (fun s p => assign_value s p ((getv s p).filter (fun ch => ch ≠ c))) ps
        (assign_value σ b ((getv σ b).filter (fun ch => ch ≠ c)))
        (fun s x _ => assign_shrinks s x (List.filter_sublist _))
      exact h2.hasEmpty_mono h1
    · exact ih hbp (by rw [hshr.keyList]; exact hbk) ((hshr.getv b).trans hbsub)

theorem elim_fold_empties {peers : String → List String} {c : Char} :
    ∀ {l : List String} {σ : PState} {a b : String},
      a ∈ l → b ∈ peers a → a ∈ keyList σ → b ∈ keyList σ →
      Sublist (getv σ a) [c] → Sublist (getv σ b) [c] →
      hasEmpty (l.foldl (elimStep peers) σ) = true := by
  intro l
  induction l with
  | nil => intro σ a b ha; simp at ha
  | cons x xs ih =>
    intro σ a b ha hab hak hbk hasub hbsub
    rw [List.foldl_cons]
    have hstep : Shrinks (elimStep peers σ x) σ := elimStep_shrinks peers σ x
    have hfold := foldl_shrinks (elimStep peers) xs (elimStep peers σ x)
      (fun s y _ => elimStep_shrinks peers s y)
    rcases List.mem_cons.mp ha with hax | hax
    · subst hax
      rcases sublist_singleton_cases hasub with hva | hva
      · have h1 : hasEmpty σ = true := hasEmpty_of_getv_nil hak hva
        exact hfold.hasEmpty_mono (hstep.hasEmpty_mono h1)
      · have hstepeq : elimStep peers σ a =
            (peers a).foldl
              (fun s p => assign_value s p ((getv s p).filter (fun ch => ch ≠ c))) σ := by
          rw [elimStep, hva]
        have h1 : hasEmpty (elimStep peers σ a) = true := by
          rw [hstepeq]
          exact elim_peer_fold_empties hab hbk hbsub
        exact hfold.hasEmpty_mono h1
    · exact ih hax hab (by rw [hstep.keyList]; exact hak)
        (by rw [hstep.keyList]; exact hbk)
        ((hstep.getv a).trans hasub) ((hstep.getv b).trans hbsub)

theorem mem_solvedKeys {st : PState} {a : String} (ha : a ∈ keyList st)
    (hlen : (getv st a).length = 1) : a ∈ solvedKeys st := by
  rw [solvedKeys, List.mem_map]
  exact ⟨(a, getv st a), List.mem_filter.mpr ⟨mem_keyList_getv ha, by simpa using hlen⟩, rfl⟩

theorem eliminate_dup_empties {peers : String → List String} {st : PState}
    {a b : String} {c : Char} (hab : b ∈ peers a) (ha : a ∈ keyList st)
    (hb : b ∈ keyList st) (hva : getv st a = [c]) (hvb : getv st b = [c]) :
    hasEmpty (eliminate peers st) = true := by
  rw [eliminate]
  have hsol : a ∈ solvedKeys st := mem_solvedKeys ha (by rw [hva]; rfl)
  exact elim_fold_empties hsol hab ha hb (by rw [hva]) (by rw [hvb])

theorem entry_eq_getv {st : PState} (hnd : (keyList st).Nodup) :
    ∀ p ∈ st, p.2 = getv st p.1 := by
  induction st with
  | nil => intro p hp; simp at hp
  | cons q rest ih =>
    obtain ⟨k, w⟩ := q
    simp only [CSolver.keyList, List.map_cons, List.nodup_cons] at hnd
    intro p hp
    rcases List.mem_cons.mp hp with hpq | hpq
    · subst hpq; rw [getv_cons, if_pos rfl]
    · have hne : k ≠ p.1 := by
        intro hk
        exact hnd.1 (hk ▸ (List.mem_map.mpr ⟨p, hpq, rfl⟩))
      rw [getv_cons, if_neg hne]
      exact ih hnd.2 p hpq

theorem solvedCount_eq_length_of_all {st : PState} (h : ∀ p ∈ st, p.2.length = 1) :
    solvedCount st = st.length := by
  rw [solvedCount, List.filter_eq_self.mpr (fun p hp => by simpa using h p hp)]

theorem stalled_solved_distinct {X : List String} {D : List Char}
    {C : List (List String)} {peers : String → List String}
    {extra : List (PState → PState)} (hx : ∀ f ∈ extra, ShrinkRule f)
    {r st₀ : PState}
    (hkeys : keyList r = X) (hnd : X.Nodup)
    (hone : ∀ v ∈ X, (getv r v).length = 1)
    (hne : hasEmpty r = false)
    (hpass : r = applyRules ([eliminate peers, only_choice C D] ++ extra) st₀)
    (hcount : solvedCount st₀ = solvedCount r)
    (hsub : ∀ g ∈ C, ∀ v ∈ g, v ∈ X)
    (hpeers : ∀ g ∈ C, ∀ u ∈ g, ∀ v ∈ g, u ≠ v → v ∈ peers u) :
    ∀ g ∈ C, ∀ u ∈ g, ∀ v ∈ g, u ≠ v → getv r u ≠ getv r v := by
  have hrule : ∀ f ∈ [eliminate peers, only_choice C D] ++ extra, ShrinkRule f := by
    intro f hf
    rcases List.mem_append.mp hf with hf | hf
    · simp only [List.mem_cons, List.not_mem_nil, or_false] at hf
      rcases hf with h1 | h1
      · subst h1; exact fun st => eliminate_shrinks _ st
      · subst h1; exact fun st => only_choice_shrinks _ _ st
    · exact hx f hf
  have hshr : Shrinks r st₀ := hpass ▸ applyRules_shrinks hrule st₀
  have hk0 : keyList st₀ = X := hshr.keyList ▸ hkeys
  have hallr : ∀ p ∈ r, p.2.length = 1 := by
    intro p hp
    rw [entry_eq_getv (hkeys ▸ hnd) p hp]
    exact hone p.1 (hkeys ▸ (List.mem_map.mpr ⟨p, hp, rfl⟩))
  have hcr : solvedCount r = r.length := solvedCount_eq_length_of_all hallr
  have hall₀ : ∀ p ∈ st₀, p.2.length = 1 := by
    apply solvedCount_eq_length
    rw [hcount, hcr, hshr.length_eq]
  intro g hg u hu v hv huv heq
  have hu' : u ∈ X := hsub g hg u hu
  have hv' : v ∈ X := hsub g hg v hv
  have hu0 : (getv st₀ u).length = 1 := getv_length_one hall₀ (hk0 ▸ hu')
  have hv0 : (getv st₀ v).length = 1 := getv_length_one hall₀ (hk0 ▸ hv')
  have hru : getv r u = getv st₀ u := by
    apply sublist_of_singleton_ne_nil (hshr.getv u) hu0
    intro h0
    have := hone u hu'
    rw [h0] at this
    simp at this
  have hrv : getv r v = getv st₀ v := by
    apply sublist_of_singleton_ne_nil (hshr.getv v) hv0
    intro h0
    have := hone v hv'
    rw [h0] at this
    simp at this
  obtain ⟨c, hcu⟩ := List.length_eq_one.mp hu0
  have hcv : getv st₀ v = [c] := by rw [← hrv, ← heq, hru, hcu]
  have hvp : v ∈ peers u := hpeers g hg u hu v hv huv
  have hemp : hasEmpty (eliminate peers st₀) = true :=
    eliminate_dup_empties hvp (hk0 ▸ hu') (hk0 ▸ hv') hcu hcv
  have hrest : Shrinks (applyRules (only_choice C D :: extra) (eliminate peers st₀))
      (eliminate peers st₀) := by
    apply applyRules_shrinks
    intro f hf
    rcases List.mem_cons.mp hf with h1 | h1
    · subst h1; exact fun st => only_choice_shrinks _ _ st
    · exact hx f h1
  have hres : hasEmpty r = true := by
    rw [hpass]
    have : applyRules ([eliminate peers, only_choice C D] ++ extra) st₀ =
        applyRules (only_choice C D :: extra) (eliminate peers st₀) := by
      rw [applyRules, applyRules, List.cons_append, List.foldl_cons]
      rfl
    rw [this]
    exact hrest.hasEmpty_mono hemp
  rw [hne] at hres
  cases hres

/-! ## Inverting a successful `solve` -/

theorem solve_true_inv {s s' : Solver} (hfresh : s.solved = false)
    (h : solve s = some (true, s')) :
    ∃ st stx ss, searchLoop s.rules s.X (s.X.length + 1) (mu s.internal_state + 1)
        s.internal_state (0, 0) = some (SR.found st, stx, ss) ∧
      st.isEmpty = false ∧
      s' = { s with
        internal_state := st
        solved := true
        reduce_count := ss.1
        search_count := ss.2 } := by
  rw [solve] at h
  cases hsr : searchLoop s.rules s.X (s.X.length + 1) (mu s.internal_state + 1)
      s.internal_state (0, 0) with
  | none => rw [hsr] at h; cases h
  | some out =>
    obtain ⟨r1, stm, ss⟩ := out
    rw [hsr] at h
    dsimp only at h
    cases r1 with
    | fail =>
      simp only [Option.some.injEq, Prod.mk.injEq] at h
      rw [hfresh] at h
      exact absurd h.1 (by simp)
    | found st =>
      dsimp only at h
      by_cases hemp : st.isEmpty = true
      · rw [if_pos hemp] at h
        simp only [Option.some.injEq, Prod.mk.injEq] at h
        rw [hfresh] at h
        exact absurd h.1 (by simp)
      · rw [if_neg hemp] at h
        simp only [Option.some.injEq, Prod.mk.injEq] at h
        exact ⟨st, stm, ss, rfl, by simpa using hemp, h.2.symm⟩

/-! ## Behaviour of the Sudoku grid parser -/

theorem gridChars_none_iff (grid : List Char) :
    gridChars grid = none ↔ ∃ ch ∈ grid, ch ∉ sudokuCols ∧ ch ≠ '.' := by
  induction grid with
  | nil => simp [gridChars]
  | cons c rest ih =>
    by_cases h1 : c ∈ sudokuCols
    · rw [gridChars, if_pos h1, Option.map_eq_none', ih]
      constructor
      · rintro ⟨ch, hm, hprop⟩
        exact ⟨ch, List.mem_cons_of_mem _ hm, hprop⟩
      · rintro ⟨ch, hm, hprop⟩
        rcases List.mem_cons.mp hm with hch | hm
        · exact absurd h1 (hch ▸ hprop.1)
        · exact ⟨ch, hm, hprop⟩
    · by_cases h2 : c = '.'
      · rw [gridChars, if_neg h1, if_pos h2, Option.map_eq_none', ih]
        constructor
        · rintro ⟨ch, hm, hprop⟩
          exact ⟨ch, List.mem_cons_of_mem _ hm, hprop⟩
        · rintro ⟨ch, hm, hprop⟩
          rcases List.mem_cons.mp hm with hch | hm
          · exact absurd h2 (hch ▸ hprop.2)
          · exact ⟨ch, hm, hprop⟩
      · rw [gridChars, if_neg h1, if_neg h2]
        constructor
        · intro _
          exact ⟨c, List.mem_cons_self _ _, h1, h2⟩
        · intro _
          rfl

theorem gridChars_length : ∀ {grid : List Char} {chars : List (List Char)},
    gridChars grid = some chars → chars.length = grid.length := by
  intro grid
  induction grid with
  | nil =>
    intro chars h
    rw [gridChars] at h
    cases h
    rfl
  | cons c rest ih =>
    intro chars h
    rw [gridChars] at h
    by_cases h1 : c ∈ sudokuCols
    · rw [if_pos h1] at h
      cases hg : gridChars rest with
      | none => rw [hg] at h; cases h
      | some l =>
        rw [hg] at h
        cases h
        simp [ih hg]
    · by_cases h2 : c = '.'
      · rw [if_neg h1, if_pos h2] at h
        cases hg : gridChars rest with
        | none => rw [hg] at h; cases h
        | some l =>
          rw [hg] at h
          cases h
          simp [ih hg]
      · rw [if_neg h1, if_neg h2] at h
        cases h

/-! ## Soundness: a consistent assignment compatible with a state stays
compatible through propagation, so propagation never prunes a solution -/

theorem foldl_pres {β : Type} (P : PState → Prop) (f : PState → β → PState)
    (l : List β) (st : PState) (h : ∀ s x, x ∈ l → P s → P (f s x)) (h0 : P st) :
    P (l.foldl f st) := by
  induction l generalizing st with
  | nil => exact h0
  | cons x xs ih =>
    rw [List.foldl_cons]
    exact ih _ (fun s y hy => h s y (List.mem_cons_of_mem _ hy))
      (h st x (List.mem_cons_self _ _) h0)

theorem solvedKeys_subset (st : PState) : solvedKeys st ⊆ keyList st := by
  intro v hv
  rw [solvedKeys, List.mem_map] at hv
  obtain ⟨p, hp, rfl⟩ := hv
  rw [CSolver.keyList]
  exact List.mem_map.mpr ⟨p, List.mem_of_mem_filter hp, rfl⟩

theorem group_surjective {X : List String} {D : List Char} {C : List (List String)}
    {peers : String → List String} (H : Hyps X D C peers) {a : String → Char}
    (hcons : Consistent C a) {g : List String} (hg : g ∈ C)
    (hvals : ∀ v ∈ g, a v ∈ D) {c : Char} (hc : c ∈ D) : ∃ B ∈ g, a B = c := by
  have hnd := H.groups_nodup g hg
  have hmapnd : (g.map a).Nodup :=
    hnd.map_on (fun u hu v hv heq => by
      by_contra hne
      exact hcons g hg u hu v hv hne heq)
  have hsub : (g.map a).toFinset ⊆ D.toFinset := by
    intro x hx
    rw [List.mem_toFinset] at hx ⊢
    obtain ⟨B, hB, rfl⟩ := List.mem_map.mp hx
    exact hvals B hB
  have hcard : D.toFinset.card ≤ (g.map a).toFinset.card := by
    rw [List.toFinset_card_of_nodup hmapnd, List.toFinset_card_of_nodup H.dnodup,
      List.length_map]
    exact (H.groups_len g hg).ge
  have heq := Finset.eq_of_subset_of_card_le hsub hcard
  have hcm : c ∈ (g.map a).toFinset := by
    rw [heq, List.mem_toFinset]
    exact hc
  rw [List.mem_toFinset] at hcm
  obtain ⟨B, hB, hBa⟩ := List.mem_map.mp hcm
  exact ⟨B, hB, hBa⟩

theorem ocStep_sound {X : List String} {D : List Char} {C : List (List String)}
    {peers : String → List String} (H : Hyps X D C peers) {a : String → Char}
    (hcons : Consistent C a) {g : List String} (hg : g ∈ C) {σ : PState}
    (hsubD : ∀ v ∈ X, Sublist (getv σ v) D) (hw : Within X a σ) {c : Char}
    (hc : c ∈ D) : Within X a (ocStep g σ c) := by
  rw [ocStep]
  split
  · rename_i item heq
    have hvals : ∀ v ∈ g, a v ∈ D := fun v hv =>
      (hsubD v (H.groups_sub g hg v hv)).subset (hw v (H.groups_sub g hg v hv))
    obtain ⟨B, hB, hBa⟩ := group_surjective H hcons hg hvals hc
    have hBmem : B ∈ g.filter (fun item => (getv σ item).contains c) := by
      refine List.mem_filter.mpr ⟨hB, ?_⟩
      have hcB : c ∈ getv σ B := hBa ▸ hw B (H.groups_sub g hg B hB)
      simpa using hcB
    rw [heq] at hBmem
    have hBitem : B = item := by simpa using hBmem
    intro v hv
    rw [getv_assign]
    by_cases hvi : v = item
    · rw [if_pos hvi]
      have hva : a v = c := by rw [hvi, ← hBitem, hBa]
      simp [hva]
    · rw [if_neg hvi]
      exact hw v hv
  · exact hw

theorem elimStep_sound {X : List String} {D : List Char} {C : List (List String)}
    {peers : String → List String} (H : Hyps X D C peers) {a : String → Char}
    (hcons : Consistent C a) {σ : PState} {item : String} (hitem : item ∈ X)
    (hw : Within X a σ) : Within X a (elimStep peers σ item) := by
  rw [elimStep]
  split
  · rename_i c hval
    have hac : a item = c := by
      have hm := hw item hitem
      rw [hval] at hm
      simpa using hm
    refine foldl_pres (Within X a) _ _ _ (fun s p hp hws => ?_) hw
    intro v hv
    rw [getv_assign]
    by_cases hvp : v = p
    · rw [if_pos hvp]
      obtain ⟨g, hgc, hug, hpg, hne⟩ := H.peers_mem item hitem p hp
      have hav : a v ∈ getv s p := hvp ▸ hws v hv
      have hane : a v ≠ c := by
        rw [hvp, ← hac]
        exact hcons g hgc p hpg item hug (Ne.symm hne)
      refine List.mem_filter.mpr ⟨hav, ?_⟩
      simpa using hane
    · rw [if_neg hvp]
      exact hws v hv
  · exact hw

theorem eliminate_sound {X : List String} {D : List Char} {C : List (List String)}
    {peers : String → List String} (H : Hyps X D C peers) {a : String → Char}
    (hcons : Consistent C a) {σ : PState} (hkeys : keyList σ = X)
    (hw : Within X a σ) : Within X a (eliminate peers σ) := by
  rw [eliminate]
  refine foldl_pres (Within X a) _ _ _ (fun s item hitem hws => ?_) hw
  exact elimStep_sound H hcons (hkeys ▸ solvedKeys_subset σ hitem) hws

theorem only_choice_sound {X : List String} {D : List Char} {C : List (List String)}
    {peers : String → List String} (H : Hyps X D C peers) {a : String → Char}
    (hcons : Consistent C a) {σ : PState}
    (hsubD : ∀ v ∈ X, Sublist (getv σ v) D) (hw : Within X a σ) :
    Within X a (only_choice C D σ) := by
  rw [only_choice]
  refine (foldl_pres
    (fun s => Within X a s ∧ ∀ v ∈ X, Sublist (getv s v) D)
    _ C σ ?_ ⟨hw, hsubD⟩).1
  intro s g hgC hP
  refine foldl_pres
    (fun s2 => Within X a s2 ∧ ∀ v ∈ X, Sublist (getv s2 v) D)
    (ocStep g) D s ?_ hP
  intro s2 c hcD hP2
  refine ⟨ocStep_sound H hcons hgC hP2.2 hP2.1 hcD, fun v hv => ?_⟩
  exact ((ocStep_shrinks g s2 c).getv v).trans (hP2.2 v hv)

theorem defaultRules_shrink (peers : String → List String) (C : List (List String))
    (D : List Char) : ∀ f ∈ [eliminate peers, only_choice C D], ShrinkRule f := by
  intro f hf
  simp only [List.mem_cons, List.not_mem_nil, or_false] at hf
  rcases hf with h1 | h1
  · subst h1; exact fun st => eliminate_shrinks _ st
  · subst h1; exact fun st => only_choice_shrinks _ _ st

theorem reduceLoop_sound {X : List String} {D : List Char} {C : List (List String)}
    {peers : String → List String} (H : Hyps X D C peers) (hnd : X.Nodup)
    {a : String → Char} (hcons : Consistent C a) :
    ∀ (fuel : Nat) (σ : PState), keyList σ = X →
      (∀ v ∈ X, Sublist (getv σ v) D) → Within X a σ →
      ∀ {b : Bool} {st' : PState},
        reduceLoop [eliminate peers, only_choice C D] fuel σ = some (b, st') →
        b = true ∧ Within X a st' ∧ keyList st' = X ∧
          (∀ v ∈ X, Sublist (getv st' v) D) := by
  intro fuel
  induction fuel with
  | zero => intro σ _ _ _ b st' h; simp [reduceLoop] at h
  | succ n ih =>
    intro σ hkeys hsubD hw b st' h
    have hrshr := defaultRules_shrink peers C D
    have hpshr := applyRules_shrinks hrshr σ
    have hpassW : Within X a (applyRules [eliminate peers, only_choice C D] σ) := by
      show Within X a (only_choice C D (eliminate peers σ))
      exact only_choice_sound H hcons
        (fun v hv => ((eliminate_shrinks peers σ).getv v).trans (hsubD v hv))
        (eliminate_sound H hcons hkeys hw)
    have hpassK : keyList (applyRules [eliminate peers, only_choice C D] σ) = X := by
      rw [hpshr.keyList, hkeys]
    have hpassD : ∀ v ∈ X,
        Sublist (getv (applyRules [eliminate peers, only_choice C D] σ) v) D :=
      fun v hv => (hpshr.getv v).trans (hsubD v hv)
    have hnoemp : hasEmpty (applyRules [eliminate peers, only_choice C D] σ) = false := by
      by_contra hne
      have htrue : hasEmpty (applyRules [eliminate peers, only_choice C D] σ) = true := by
        simpa using hne
      rw [hasEmpty, List.any_eq_true] at htrue
      obtain ⟨p, hp, hp2⟩ := htrue
      have hplen : p.2 = [] := by
        have : p.2.length = 0 := by simpa using hp2
        simpa using this
      have hkm : p.1 ∈ X := by
        rw [← hpassK, CSolver.keyList]
        exact List.mem_map.mpr ⟨p, hp, rfl⟩
      have hent := entry_eq_getv (by rw [hpassK]; exact hnd) p hp
      have hgetv : getv (applyRules [eliminate peers, only_choice C D] σ) p.1 = [] := by
        rw [← hent, hplen]
      have hcontra := hpassW p.1 hkm
      rw [hgetv] at hcontra
      simp at hcontra
    rw [reduceLoop] at h
    rw [if_neg (by rw [hnoemp]; exact Bool.false_ne_true)] at h
    by_cases hst : solvedCount σ =
        solvedCount (applyRules [eliminate peers, only_choice C D] σ)
    · rw [if_pos hst] at h
      cases h
      exact ⟨rfl, hpassW, hpassK, hpassD⟩
    · rw [if_neg hst] at h
      exact ih (applyRules [eliminate peers, only_choice C D] σ) hpassK hpassD hpassW h

/-! ## Completeness: if a consistent assignment compatible with the
state exists, the search finds a (truthy) solution -/

theorem searchLoop_complete {X : List String} {D : List Char} {C : List (List String)}
    {peers : String → List String} (H : Hyps X D C peers) (hnd : X.Nodup)
    (hXne : X ≠ []) {a : String → Char} (hcons : Consistent C a) (rfuel : Nat) :
    ∀ (fuel : Nat) (σ : PState) (ss : SS), mu σ < fuel → σ.length < rfuel →
      keyList σ = X → (∀ v ∈ X, Sublist (getv σ v) D) → Within X a σ →
      ∃ r stx ss', searchLoop [eliminate peers, only_choice C D] X rfuel fuel σ ss =
        some (SR.found r, stx, ss') ∧ r ≠ [] := by
  intro fuel
  induction fuel with
  | zero => intro σ ss hmu; exact absurd hmu (Nat.not_lt_zero _)
  | succ n ih =>
    intro σ ss hmu hlen hkeys hsubD hw
    have hrshr := defaultRules_shrink peers C D
    rw [searchLoop]
    obtain ⟨⟨b, st'⟩, hred⟩ := reduceLoop_adequate hrshr rfuel σ (by
      have := solvedCount_le_length σ
      omega)
    obtain ⟨hb, hW', hK', hD'⟩ := reduceLoop_sound H hnd hcons rfuel σ hkeys hsubD hw hred
    subst hb
    rw [hred]
    dsimp only
    have hshr := reduceLoop_shrinks hrshr hred
    have hlen' : st'.length = σ.length := hshr.length_eq
    have hnoemp : hasEmpty st' = false := (ReduceRel_true (reduceLoop_rel hred) rfl).1
    have hne' : st' ≠ [] := by
      intro h0
      rw [h0] at hK'
      exact hXne hK'.symm
    by_cases hall : (X.all fun v => (getv st' v).length == 1) = true
    · rw [if_pos hall]
      exact ⟨st', st', _, rfl, hne'⟩
    · rw [if_neg hall]
      have hex : ∃ v ∈ X, 1 < (getv st' v).length := by
        have hnall : ¬∀ v ∈ X, ((getv st' v).length == 1) = true := by
          simpa [List.all_eq_true] using hall
        push_neg at hnall
        obtain ⟨v, hv, hnot⟩ := hnall
        have hlen1 : (getv st' v).length ≠ 1 := by simpa using hnot
        have hvk : v ∈ keyList st' := by rw [hK']; exact hv
        have hnn : getv st' v ≠ [] := by
          intro h0
          have := hasEmpty_of_getv_nil hvk h0
          rw [hnoemp] at this
          cases this
        have hlen0 : (getv st' v).length ≠ 0 :=
          fun h0 => hnn (List.length_eq_zero.mp h0)
        exact ⟨v, hv, by omega⟩
      obtain ⟨s, hpick⟩ := pickVar_some_of_exists hex
      rw [hpick]
      dsimp only
      have hprops := pickVar_props hpick
      have hsmem : s ∈ keyList st' := getv_ne_nil_mem (by
        intro h0
        rw [h0] at hprops
        simp at hprops)
      have hall2 : ∀ c ∈ getv st' s, ∀ ssA,
          ∃ v, searchLoop [eliminate peers, only_choice C D] X rfuel n
            (assign_value st' s [c]) ssA = some v := by
        intro c hc ssA
        have hasg := assign_shrinks st' s (List.singleton_sublist.mpr hc)
        apply searchLoop_adequate [eliminate peers, only_choice C D] X rfuel hrshr
        · have h1 : mu (assign_value st' s [c]) < mu st' := mu_assign_lt hsmem hprops.2
          have h2 : mu st' ≤ mu σ := hshr.mu_le
          omega
        · have h1 := hasg.length_eq
          omega
      have hwitness : ∃ c ∈ getv st' s, ∀ ssA, ∃ r stx ssf,
          searchLoop [eliminate peers, only_choice C D] X rfuel n
            (assign_value st' s [c]) ssA = some (SR.found r, stx, ssf) ∧ r ≠ [] := by
        refine ⟨a s, hW' s hprops.1, fun ssA => ?_⟩
        have hasg := assign_shrinks st' s
          (List.singleton_sublist.mpr (hW' s hprops.1))
        apply ih
        · have h1 : mu (assign_value st' s [a s]) < mu st' := mu_assign_lt hsmem hprops.2
          have h2 : mu st' ≤ mu σ := hshr.mu_le
          omega
        · have h1 := hasg.length_eq
          omega
        · rw [hasg.keyList, hK']
        · intro v hv
          rw [getv_assign]
          by_cases hvs : v = s
          · rw [if_pos hvs]
            have hmem : a s ∈ D := (hD' s hprops.1).subset (hW' s hprops.1)
            exact List.singleton_sublist.mpr hmem
          · rw [if_neg hvs]
            exact hD' v hv
        · intro v hv
          rw [getv_assign]
          by_cases hvs : v = s
          · rw [if_pos hvs, hvs]
            simp
          · rw [if_neg hvs]
            exact hW' v hv
      obtain ⟨r2, ssf, htf⟩ := tryFold_complete hall2 hwitness
      rw [htf]
      obtain ⟨c, hcmem, ssA, stx2, hgc⟩ := tryFold_found_src htf
      have hmain := searchLoop_found_main hrshr hgc
      have hkr : keyList r2 = X := by
        rw [hmain.1.keyList,
          (assign_shrinks st' s (List.singleton_sublist.mpr hcmem)).keyList, hK']
      have hner2 : r2 ≠ [] := by
        intro h0
        rw [h0] at hkr
        exact hXne hkr.symm
      exact ⟨r2, st', ssf, rfl, hner2⟩

/-! ## Claim theorems -/





/-- C3 counterexample: the base constructor accepts a constraint group
referencing the unknown variable `ZZ` and returns a complete, usable
Problem Model (no `InvalidProblem`, no failing closed). -/
theorem claim_c3_counterexample :
    badProblem.C = [["WA", "ZZ"]] ∧ "ZZ" ∉ badProblem.X ∧
    badProblem.internal_state = [("WA", ['R', 'B'])] ∧ badProblem.X = ["WA"] :=
  ⟨rfl, by decide, rfl, rfl⟩

/-- C3 (amended): the base constructor performs no validation at all and
always returns the model built from its arguments unchanged; only the
Sudoku adapter's grid parser rejects bad input, returning its failure
sentinel exactly when some grid character is neither a digit of the
alphabet nor `'.'`, or the grid does not have exactly 81 cells. -/
theorem claim_c3_amended_validation :
    (∀ (state : PState) (X : List String) (D : List Char) (C : List (List String))
        (peers : String → List String),
      (ConstraintSolver_init state X D C peers).internal_state = state ∧
      (ConstraintSolver_init state X D C peers).X = X ∧
      (ConstraintSolver_init state X D C peers).C = C) ∧
    (∀ grid : List Char,
      grid_values grid = none ↔
        (∃ ch ∈ grid, ch ∉ sudokuCols ∧ ch ≠ '.') ∨ grid.length ≠ 81) := by
  refine ⟨fun state X D C peers => ⟨rfl, rfl, rfl⟩, fun grid => ?_⟩
  rw [grid_values]
  cases hg : gridChars grid with
  | none =>
    constructor
    · intro _
      exact Or.inl ((gridChars_none_iff grid).mp hg)
    · intro _
      rfl
  | some chars =>
    dsimp only
    have hlen := gridChars_length hg
    by_cases h81 : chars.length = 81
    · rw [if_pos h81]
      constructor
      · intro h
        cases h
      · rintro (⟨ch, hm, hbad⟩ | hL)
        · have : gridChars grid = none :=
            (gridChars_none_iff grid).mpr ⟨ch, hm, hbad⟩
          rw [hg] at this
          cases this
        · exact absurd (by omega) hL
    · rw [if_neg h81]
      constructor
      · intro _
        right
        omega
      · intro _
        rfl

/-- C4 counterexample: on the fresh map-coloring instance the first
`solve` reports branch count 2 and pass count 3, but a second `solve`
on the same (now solved) instance reports 0 and 1: repeated calls do
not yield identical counter values. -/
theorem claim_c4_counterexample :
    aussieAfter = ((solve aussie).getD (true, aussie)).2 ∧
    (solve aussie).map (fun p => (p.1, p.2.reduce_count, p.2.search_count)) =
      some (true, 3, 2) ∧
    (solve aussieAfter).map (fun p => (p.1, p.2.reduce_count, p.2.search_count)) =
      some (true, 1, 0) ∧
    ¬((3, 2) : Nat × Nat) = (1, 0) :=
  ⟨rfl, by decide, by decide, by decide⟩

/-- C10: a failed `solve` is not atomic: on the unsolvable instance with
`WA` and `NT` both fixed to red, `solve` returns the failure result yet
the stored state differs from the initial state — it retains the
candidate removals made by the top-level propagation (including the
emptied set of `NT`). -/
theorem claim_c10_failed_solve_mutates :
    (solve aussieBad).map (fun p => (p.1, p.2.internal_state)) =
      some (false, [("WA", ['R']), ("NT", []), ("SA", ['B']), ("QL", ['R']),
        ("NSW", ['G']), ("VT", ['R'])]) ∧
    aussieBad.internal_state = [("WA", ['R']), ("NT", ['R']),
      ("SA", ['R', 'B', 'G']), ("QL", ['R', 'B', 'G']),
      ("NSW", ['R', 'B', 'G']), ("VT", ['R', 'B', 'G'])] ∧
    ¬[("WA", ['R']), ("NT", ([] : List Char)), ("SA", ['B']), ("QL", ['R']),
        ("NSW", ['G']), ("VT", ['R'])] = aussieBad.internal_state :=
  ⟨by decide, by decide, by decide⟩



/-- C6: each propagation pass — elimination, only-choice, and a
registered extra rule such as naked twins, applied in order — never
increases any variable's candidate set: after the pass every variable's
candidate set is a subset of its candidate set before the pass. -/
theorem claim_c6_pass_never_grows (C : List (List String)) (D : List Char)
    (peers : String → List String) (st : PState) (v : String) :
    getv (applyRules [eliminate peers, only_choice C D, naked_twins C] st) v ⊆
      getv st v := by
  have h : ∀ f ∈ [eliminate peers, only_choice C D, naked_twins C], ShrinkRule f := by
    intro f hf
    simp only [List.mem_cons, List.not_mem_nil, or_false] at hf
    rcases hf with h1 | h1 | h1
    · subst h1; exact fun s => eliminate_shrinks _ s
    · subst h1; exact fun s => only_choice_shrinks _ _ s
    · subst h1; exact fun s => naked_twins_shrinks _ s
  exact ((applyRules_shrinks h st).getv v).subset

/-- C5: for a problem with finitely many variables (the state's keys)
and a finite alphabet, `solve` terminates: the fuel `solve` allots —
one unit per candidate symbol for the search, one per variable for the
inner propagation loop — always suffices when every reduction rule only
shrinks candidate sets, because propagation strictly increases the
solved count until a fixed point or an empty set, and every recursive
search call strictly reduces the total candidate count. -/
theorem claim_c5_solve_terminates (s : Solver)
    (hx : ∀ f ∈ s.extra, ShrinkRule f)
    (hkeys : keyList s.internal_state = s.X) :
    ∃ r, solve s = some r := by
  rw [solve]
  have hlen : s.internal_state.length = s.X.length := by
    rw [← hkeys, CSolver.keyList, List.length_map]
  obtain ⟨out, hout⟩ := searchLoop_adequate s.rules s.X (s.X.length + 1)
    (rules_shrink hx) (mu s.internal_state + 1) s.internal_state (0, 0)
    (Nat.lt_succ_self _) (by omega)
  rw [hout]
  obtain ⟨r1, stm, ss⟩ := out
  cases r1 with
  | found st =>
    dsimp only
    by_cases hemp : st.isEmpty = true
    · rw [if_pos hemp]; exact ⟨_, rfl⟩
    · rw [if_neg hemp]; exact ⟨_, rfl⟩
  | fail => exact ⟨_, rfl⟩

/-- Witness for C5 at the concrete map-coloring instance. -/
theorem claim_c5_witness : ∃ r, solve aussie = some r :=
  claim_c5_solve_terminates aussie
    (by intro f hf; rw [show aussie.extra = [] from rfl] at hf; cases hf)
    (by decide)

/-- C7: the propagation engine loop refines its specification: whenever
`reduceLoop` returns, the returned outcome is related to the input
state by `ReduceRel` — record the solved count, apply every rule in
order with each rule's output feeding the next, recompute the count;
stop with the distinguished infeasible result as soon as a variable's
candidate set becomes empty, stop with the pass result when the count
is unchanged over a pass, and iterate otherwise. -/
theorem claim_c7_reduce_loop_spec {rules : List (PState → PState)} {fuel : Nat}
    {st : PState} {r : Bool × PState} (h : reduceLoop rules fuel st = some r) :
    ReduceRel rules st r :=
  reduceLoop_rel h

/-- Witness for C7 at the concrete map-coloring instance. -/
theorem claim_c7_witness :
    ReduceRel aussie.rules aussie.internal_state
      (true, applyRules aussie.rules aussie.internal_state) := by
  have h : reduceLoop aussie.rules 1 aussie.internal_state =
      some (true, applyRules aussie.rules aussie.internal_state) := rfl
  exact claim_c7_reduce_loop_spec h

/-- C9: every solving operation only removes candidate symbols, so when
`solve` succeeds every variable's final candidate set is a sub-sequence
of its initial one; every variable's final single value is a member of
its initial candidate set; and every variable that was already solved
in the initial assignment keeps its initial value in the solution. -/
theorem claim_c9_values_from_initial (s : Solver)
    (hx : ∀ f ∈ s.extra, ShrinkRule f) (hfresh : s.solved = false)
    {s' : Solver} (h : solve s = some (true, s')) :
    (∀ v, Sublist (getv s'.internal_state v) (getv s.internal_state v)) ∧
    (∀ v ∈ s.X, ∃ c, getv s'.internal_state v = [c] ∧ c ∈ getv s.internal_state v) ∧
    (∀ v ∈ s.X, (getv s.internal_state v).length = 1 →
      getv s'.internal_state v = getv s.internal_state v) := by
  obtain ⟨st, stx, ss, hsr, hemp, hrec⟩ := solve_true_inv hfresh h
  have hmain := searchLoop_found_main (rules_shrink hx) hsr
  have hint : s'.internal_state = st := by rw [hrec]
  rw [hint]
  refine ⟨fun v => hmain.1.getv v, ?_, ?_⟩
  · intro v hv
    obtain ⟨c, hc⟩ := List.length_eq_one.mp (hmain.2.1 v hv)
    refine ⟨c, hc, ?_⟩
    have hsubl := hmain.1.getv v
    rw [hc] at hsubl
    exact List.singleton_sublist.mp hsubl
  · intro v hv hlen
    apply sublist_of_singleton_ne_nil (hmain.1.getv v) hlen
    intro h0
    have hone := hmain.2.1 v hv
    rw [h0] at hone
    simp at hone

/-- Witness for C9: solving the map with `WA` fixed to red keeps
`WA = R` in the solution. -/
theorem claim_c9_witness :
    ∃ s', solve aussieWA = some (true, s') ∧ getv s'.internal_state "WA" = ['R'] := by
  have h : solve aussieWA = some (true, ((solve aussieWA).getD (true, aussieWA)).2) := by rfl
  refine ⟨_, h, ?_⟩
  have hmain := claim_c9_values_from_initial aussieWA
    (by intro f hf; rw [show aussieWA.extra = [] from rfl] at hf; cases hf) rfl h
  have hkeep := hmain.2.2 "WA" (by decide) (by decide)
  rw [hkeep]
  decide

/-- C1: if `solve` succeeds then in the final state every variable's
candidate set has exactly one member, and in every constraint group the
solved values of distinct member variables are pairwise distinct. -/
theorem claim_c1_solved_state_consistent (s : Solver)
    (hx : ∀ f ∈ s.extra, ShrinkRule f) (hfresh : s.solved = false)
    (hkeys : keyList s.internal_state = s.X) (hnd : s.X.Nodup)
    (hsub : ∀ g ∈ s.C, ∀ v ∈ g, v ∈ s.X)
    (hpeers : ∀ g ∈ s.C, ∀ u ∈ g, ∀ v ∈ g, u ≠ v → v ∈ s.peers u)
    {s' : Solver} (h : solve s = some (true, s')) :
    (∀ v ∈ s.X, (getv s'.internal_state v).length = 1) ∧
    (∀ g ∈ s.C, ∀ u ∈ g, ∀ v ∈ g, u ≠ v →
      getv s'.internal_state u ≠ getv s'.internal_state v) := by
  obtain ⟨st, stx, ss, hsr, hemp, hrec⟩ := solve_true_inv hfresh h
  have hmain := searchLoop_found_main (rules_shrink hx) hsr
  have hint : s'.internal_state = st := by rw [hrec]
  rw [hint]
  obtain ⟨hshr, hone, hnoemp, st₀, hpass, hcount⟩ := hmain
  refine ⟨hone, ?_⟩
  have hkeysr : keyList st = s.X := by rw [hshr.keyList, hkeys]
  rw [Solver.rules] at hpass
  exact stalled_solved_distinct hx hkeysr hnd hone hnoemp hpass hcount hsub hpeers

/-- Witness for C1: in the solved map, the neighbouring regions `WA`
and `NT` received different colors. -/
theorem claim_c1_witness :
    ∃ s', solve aussie = some (true, s') ∧
      getv s'.internal_state "WA" ≠ getv s'.internal_state "NT" := by
  have h : solve aussie = some (true, ((solve aussie).getD (true, aussie)).2) := by rfl
  refine ⟨_, h, ?_⟩
  have hmain := claim_c1_solved_state_consistent aussie
    (by intro f hf; rw [show aussie.extra = [] from rfl] at hf; cases hf) rfl
    (by decide) (by decide) (by decide) (by decide) h
  exact hmain.2 ["WA", "NT", "SA"] (by decide) "WA" (by decide) "NT" (by decide)
    (by decide)

/-- C2: for a fresh, well-formed instance, `solve` returns the tagged
failure (`False`, not an exception) exactly when no constraint-consistent
full assignment compatible with the initial candidate sets exists; an
empty candidate set during propagation only prunes one search branch,
and failure is reported only after every branch is exhausted. -/
theorem claim_c2_unsolvable_iff (s : Solver) (H : Hyps s.X s.D s.C s.peers)
    (hnd : s.X.Nodup) (hXne : s.X ≠ []) (hx : s.extra = [])
    (hfresh : s.solved = false) (hkeys : keyList s.internal_state = s.X)
    (hsubD : ∀ v ∈ s.X, Sublist (getv s.internal_state v) s.D)
    {res : Bool} {s' : Solver} (h : solve s = some (res, s')) :
    res = false ↔ ¬∃ a, Within s.X a s.internal_state ∧ Consistent s.C a := by
  have hrules : s.rules = [eliminate s.peers, only_choice s.C s.D] := by
    rw [Solver.rules, hx, List.append_nil]
  have hlenX : s.internal_state.length = s.X.length := by
    rw [← hkeys, CSolver.keyList, List.length_map]
  constructor
  · intro hres hex
    obtain ⟨a, hwa, hca⟩ := hex
    obtain ⟨r, stx, ss', hsr, hner⟩ := searchLoop_complete H hnd hXne hca
      (s.X.length + 1) (mu s.internal_state + 1) s.internal_state (0, 0)
      (Nat.lt_succ_self _) (by omega) hkeys hsubD hwa
    rw [solve, hrules, hsr] at h
    dsimp only at h
    rw [if_neg (by
      cases r with
      | nil => exact absurd rfl hner
      | cons p l => simp)] at h
    simp only [Option.some.injEq, Prod.mk.injEq] at h
    obtain ⟨h1, -⟩ := h
    rw [← h1] at hres
    exact Bool.noConfusion hres
  · intro hnex
    cases res with
    | false => rfl
    | true =>
      exfalso
      obtain ⟨st, stx, ss, hsr, hemp, hrec⟩ := solve_true_inv hfresh h
      have hxs : ∀ f ∈ s.extra, ShrinkRule f := by
        rw [hx]
        intro f hf
        cases hf
      obtain ⟨hshr, hone, hnoemp, st₀, hpass, hcount⟩ :=
        searchLoop_found_main (rules_shrink hxs) hsr
      apply hnex
      refine ⟨fun v => (getv st v).headI, ?_, ?_⟩
      · intro v hv
        show (getv st v).headI ∈ getv s.internal_state v
        obtain ⟨c, hc⟩ := List.length_eq_one.mp (hone v hv)
        have hsub := hshr.getv v
        rw [hc] at hsub
        rw [hc]
        simpa using List.singleton_sublist.mp hsub
      · have hkeysr : keyList st = s.X := by rw [hshr.keyList, hkeys]
        rw [Solver.rules] at hpass
        have hdist := stalled_solved_distinct hxs hkeysr hnd hone hnoemp hpass hcount
          H.groups_sub H.mem_peers
        intro g hg u hu v hv huv
        show (getv st u).headI ≠ (getv st v).headI
        have hne2 := hdist g hg u hu v hv huv
        obtain ⟨cu, hcu⟩ := List.length_eq_one.mp (hone u (H.groups_sub g hg u hu))
        obtain ⟨cv, hcv⟩ := List.length_eq_one.mp (hone v (H.groups_sub g hg v hv))
        rw [hcu, hcv] at hne2 ⊢
        intro heq
        apply hne2
        simpa using heq

/-- Witness for C2: the map instance with `WA` and `NT` both fixed to
red admits no consistent assignment. -/
theorem claim_c2_witness :
    ¬∃ a, Within aussieBad.X a aussieBad.internal_state ∧ Consistent aussieBad.C a := by
  have h : solve aussieBad =
      some (false, ((solve aussieBad).getD (false, aussieBad)).2) := by rfl
  exact (claim_c2_unsolvable_iff aussieBad
    ⟨by decide, by decide, by decide, by decide, by decide, by decide⟩
    (by decide) (by decide) rfl rfl (by decide) (by decide) h).mp rfl

/-! ## C8: branch-variable selection and value-trial order -/

theorem charsLtB_cons_iff (x y : Char) (xs ys : List Char) :
    charsLtB (x :: xs) (y :: ys) = true ↔
      x < y ∨ (x = y ∧ charsLtB xs ys = true) := by
  rw [charsLtB]
  by_cases h1 : x < y
  · rw [if_pos h1]
    simp [h1]
  · rw [if_neg h1]
    by_cases h2 : y < x
    · rw [if_pos h2]
      constructor
      · intro h
        simp at h
      · rintro (h | ⟨heq, -⟩)
        · exact absurd h h1
        · exact absurd (heq ▸ h2) (lt_irrefl x)
    · rw [if_neg h2]
      have hxy : x = y := le_antisymm (not_lt.mp h2) (not_lt.mp h1)
      constructor
      · intro h
        exact Or.inr ⟨hxy, h⟩
      · rintro (h | ⟨-, h⟩)
        · exact absurd h h1
        · exact h

theorem charsLtB_irrefl : ∀ l : List Char, charsLtB l l = false
  | [] => rfl
  | x :: xs => by
    rw [charsLtB, if_neg (lt_irrefl x), if_neg (lt_irrefl x)]
    exact charsLtB_irrefl xs

theorem charsLtB_trans : ∀ {l m k : List Char},
    charsLtB l m = true → charsLtB m k = true → charsLtB l k = true := by
  intro l
  induction l with
  | nil =>
    intro m k h1 h2
    cases k with
    | nil =>
      cases m with
      | nil => exact h2
      | cons y ys => rw [charsLtB] at h2; exact absurd h2 (by simp)
    | cons z zs => rfl
  | cons x xs ih =>
    intro m k h1 h2
    cases m with
    | nil => rw [charsLtB] at h1; exact absurd h1 (by simp)
    | cons y ys =>
      cases k with
      | nil => rw [charsLtB] at h2; exact absurd h2 (by simp)
      | cons z zs =>
        rw [charsLtB_cons_iff] at h1 h2 ⊢
        rcases h1 with h1 | ⟨e1, h1⟩ <;> rcases h2 with h2 | ⟨e2, h2⟩
        · exact Or.inl (lt_trans h1 h2)
        · exact Or.inl (e2 ▸ h1)
        · exact Or.inl (e1 ▸ h2)
        · exact Or.inr ⟨e1.trans e2, ih h1 h2⟩

theorem charsLtB_total : ∀ {l m : List Char},
    l ≠ m → charsLtB l m = true ∨ charsLtB m l = true := by
  intro l
  induction l with
  | nil =>
    intro m h
    cases m with
    | nil => exact absurd rfl h
    | cons y ys => exact Or.inl rfl
  | cons x xs ih =>
    intro m h
    cases m with
    | nil => exact Or.inr rfl
    | cons y ys =>
      by_cases hxy : x = y
      · subst hxy
        have hne : xs ≠ ys := fun he => h (he ▸ rfl)
        rcases ih hne with h1 | h1
        · exact Or.inl ((charsLtB_cons_iff x x xs ys).mpr (Or.inr ⟨rfl, h1⟩))
        · exact Or.inr ((charsLtB_cons_iff x x ys xs).mpr (Or.inr ⟨rfl, h1⟩))
      · rcases lt_or_gt_of_ne hxy with h1 | h1
        · exact Or.inl ((charsLtB_cons_iff x y xs ys).mpr (Or.inl h1))
        · exact Or.inr ((charsLtB_cons_iff y x ys xs).mpr (Or.inl h1))

theorem strLtB_irrefl (a : String) : strLtB a a = false :=
  charsLtB_irrefl a.data

theorem strLtB_trans {a b c : String} (h1 : strLtB a b = true)
    (h2 : strLtB b c = true) : strLtB a c = true :=
  charsLtB_trans h1 h2

theorem strLtB_total {a b : String} (h : a ≠ b) :
    strLtB a b = true ∨ strLtB b a = true := by
  apply charsLtB_total
  intro hd
  apply h
  cases a with
  | mk la =>
    cases b with
    | mk lb => exact congrArg String.mk hd

theorem pairLtP_irrefl (st : PState) (v : String) : ¬ pairLtP st v v := by
  rintro (h | ⟨-, h⟩)
  · exact lt_irrefl _ h
  · rw [strLtB_irrefl] at h
    cases h

theorem pairLeP_of_not_lt {st : PState} {v w : String}
    (h : ¬ pairLtP st w v) :
    (getv st v).length < (getv st w).length ∨
      ((getv st v).length = (getv st w).length ∧
        (v = w ∨ strLtB v w = true)) := by
  rw [pairLtP, not_or] at h
  obtain ⟨h1, h2⟩ := h
  rcases Nat.lt_or_ge (getv st v).length (getv st w).length with hl | hl
  · exact Or.inl hl
  · have hee : (getv st v).length = (getv st w).length :=
      le_antisymm (not_lt.mp h1) hl
    refine Or.inr ⟨hee, ?_⟩
    by_cases hvw : v = w
    · exact Or.inl hvw
    · rcases strLtB_total hvw with ht | ht
      · exact Or.inr ht
      · exact absurd ⟨hee.symm, ht⟩ h2

theorem pairLtP_of_le_of_lt {st : PState} {u v m : String}
    (h1 : (getv st u).length < (getv st v).length ∨
      ((getv st u).length = (getv st v).length ∧
        (u = v ∨ strLtB u v = true)))
    (h2 : pairLtP st v m) : pairLtP st u m := by
  rcases h2 with h2 | ⟨e2, h2⟩
  · rcases h1 with h1 | ⟨e1, -⟩
    · exact Or.inl (lt_trans h1 h2)
    · exact Or.inl (e1 ▸ h2)
  · rcases h1 with h1 | ⟨e1, hh⟩
    · exact Or.inl (e2 ▸ h1)
    · refine Or.inr ⟨e1.trans e2, ?_⟩
      rcases hh with hh | hh
      · exact hh ▸ h2
      · exact strLtB_trans hh h2

theorem foldl_betterVar_min (st : PState) :
    ∀ (xs : List String) (x w : String), w = x ∨ w ∈ xs →
      ¬ pairLtP st w (xs.foldl (betterVar st) x) := by
  intro xs
  induction xs with
  | nil =>
    intro x w hw
    rcases hw with rfl | hw
    · exact pairLtP_irrefl st w
    · cases hw
  | cons y ys ih =>
    intro x w hw
    rw [List.foldl_cons]
    by_cases hc : pairLtP st y x
    · have hc' : (getv st y).length < (getv st x).length ∨
          ((getv st y).length = (getv st x).length ∧ strLtB y x = true) := hc
      have hb : betterVar st x y = y := by
        rw [betterVar, if_pos hc']
      rw [hb]
      rcases hw with hw | hw
      · rw [hw]
        intro hlt
        apply ih y y (Or.inl rfl)
        refine pairLtP_of_le_of_lt ?_ hlt
        rcases hc with h1 | ⟨e1, h1⟩
        · exact Or.inl h1
        · exact Or.inr ⟨e1, Or.inr h1⟩
      · rcases List.mem_cons.mp hw with hw2 | hw2
        · rw [hw2]
          exact ih y y (Or.inl rfl)
        · exact ih y w (Or.inr hw2)
    · have hc' : ¬ ((getv st y).length < (getv st x).length ∨
          ((getv st y).length = (getv st x).length ∧ strLtB y x = true)) := hc
      have hb : betterVar st x y = x := by
        rw [betterVar, if_neg hc']
      rw [hb]
      rcases hw with hw | hw
      · rw [hw]
        exact ih x x (Or.inl rfl)
      · rcases List.mem_cons.mp hw with hw2 | hw2
        · rw [hw2]
          intro hlt
          exact ih x x (Or.inl rfl) (pairLtP_of_le_of_lt (pairLeP_of_not_lt hc) hlt)
        · exact ih x w (Or.inr hw2)

theorem pickVar_min {X : List String} {st : PState} {s : String}
    (h : pickVar X st = some s) :
    ∀ v ∈ X, 1 < (getv st v).length →
      (getv st s).length < (getv st v).length ∨
        ((getv st s).length = (getv st v).length ∧
          (s = v ∨ strLtB s v = true)) := by
  rw [pickVar] at h
  cases hf : X.filter (fun v => 1 < (getv st v).length) with
  | nil => rw [hf] at h; cases h
  | cons x xs =>
    rw [hf] at h
    injection h with h
    intro v hv hlen
    have hvf : v ∈ x :: xs := by
      rw [← hf]
      exact List.mem_filter.mpr ⟨hv, by simpa using hlen⟩
    have hnot : ¬ pairLtP st v (xs.foldl (betterVar st) x) := by
      apply foldl_betterVar_min st xs x v
      rcases List.mem_cons.mp hvf with h1 | h1
      · exact Or.inl h1
      · exact Or.inr h1
    rw [h] at hnot
    exact pairLeP_of_not_lt hnot

theorem tryStep_fail (g : Char → SS → Option (SR × PState × SS)) (ss : SS)
    (c : Char) :
    tryStep g (some (SR.fail, ss)) c =
      match g c ss with
      | none => none
      | some (r, _, ss') => if truthy r then some (r, ss') else some (SR.fail, ss') :=
  rfl

theorem tryFold_eq_trySpec (g : Char → SS → Option (SR × PState × SS)) :
    ∀ (l : List Char) (ss : SS), tryFold g l ss = trySpec g l ss := by
  intro l
  induction l with
  | nil => intro ss; rfl
  | cons c cs ih =>
    intro ss
    rw [tryFold, List.foldl_cons, trySpec, tryStep_fail]
    cases hg : g c ss with
    | none =>
      dsimp only
      exact tryFold_from_none g cs
    | some v =>
      obtain ⟨r, stx, ss'⟩ := v
      dsimp only
      by_cases ht : truthy r = true
      · rw [if_pos ht, if_pos ht]
        cases r with
        | found rr => exact tryFold_absorb g cs rr ss'
        | fail => simp [truthy] at ht
      · rw [if_neg ht, if_neg ht]
        exact ih ss'

/-- C8: at a branching node `__search` picks, among the unsolved
variables, one with the fewest remaining candidates (ties broken by
code-point order of the variable name, the order `min` uses on the
`(len, item)` tuples), and the candidate-value loop refines the spec's
trial loop: values are tried in candidate-string order and the first
truthy recursive result is returned, failure when exhausted. -/
theorem claim_c8_branching (X : List String) (st : PState) (s : String)
    (h : pickVar X st = some s) :
    (s ∈ X ∧ 1 < (getv st s).length ∧
      ∀ v ∈ X, 1 < (getv st v).length →
        (getv st s).length < (getv st v).length ∨
          ((getv st s).length = (getv st v).length ∧
            (s = v ∨ strLtB s v = true))) ∧
    (∀ (g : Char → SS → Option (SR × PState × SS)) (l : List Char) (ss : SS),
      tryFold g l ss = trySpec g l ss) :=
  ⟨⟨(pickVar_props h).1, (pickVar_props h).2, pickVar_min h⟩,
    fun g l ss => tryFold_eq_trySpec g l ss⟩

/-- Witness for C8: on the fresh Australia state the selected branch
variable is `NSW` (all sets have size 3; `NSW` is the code-point
smallest name), an unsolved member of the variable list. -/
theorem claim_c8_witness :
    "NSW" ∈ X_map ∧ 1 < (getv (state_setup []) "NSW").length := by
  have h : pickVar X_map (state_setup []) = some "NSW" := by decide
  have hc := claim_c8_branching X_map (state_setup []) "NSW" h
  exact ⟨hc.1.1, hc.1.2.1⟩

/-! ## C4: re-solving a solved instance -/

theorem foldl_fix {α β : Type} (f : β → α → β) (b : β) :
    ∀ l : List α, (∀ x ∈ l, f b x = b) → l.foldl f b = b := by
  intro l
  induction l with
  | nil => intro h; rfl
  | cons x xs ih =>
    intro h
    rw [List.foldl_cons, h x (List.mem_cons_self x xs)]
    exact ih (fun y hy => h y (List.mem_cons_of_mem x hy))

theorem solvedKeys_mem_keyList {st : PState} {a : String}
    (h : a ∈ solvedKeys st) : a ∈ keyList st := by
  rw [solvedKeys, List.mem_map] at h
  obtain ⟨p, hp, hpe⟩ := h
  rw [keyList, List.mem_map]
  exact ⟨p, (List.mem_filter.mp hp).1, hpe⟩

/-- On a fully solved, group-consistent state the elimination loop body
for one solved variable changes nothing: every peer's sole candidate
differs from the removed symbol, so the filter and the `!=`-guarded
assignment are both no-ops. -/
theorem elimStep_id {X : List String} {D : List Char} {C : List (List String)}
    {peers : String → List String} (H : Hyps X D C peers)
    {st : PState} (hkeys : keyList st = X)
    (hone : ∀ v ∈ X, (getv st v).length = 1)
    (hdist : ∀ g ∈ C, ∀ u ∈ g, ∀ v ∈ g, u ≠ v → getv st u ≠ getv st v)
    {item : String} (hitem : item ∈ X) :
    elimStep peers st item = st := by
  rw [elimStep]
  split
  · rename_i c heq
    apply foldl_fix
    intro p hp
    by_cases hpX : p ∈ keyList st
    · rw [hkeys] at hpX
      obtain ⟨g, hg, hmi, hmp, hne⟩ := H.peers_mem item hitem p hp
      have hdne : getv st item ≠ getv st p := hdist g hg item hmi p hmp hne
      rw [heq] at hdne
      obtain ⟨c', hc'⟩ := List.length_eq_one.mp (hone p hpX)
      have hcc : c' ≠ c := by
        intro he
        apply hdne
        rw [hc', he]
      have hfilter : (getv st p).filter (fun ch => ch ≠ c) = getv st p := by
        rw [hc', List.filter_eq_self]
        intro a ha
        rw [List.mem_singleton] at ha
        subst ha
        simpa using hcc
      rw [hfilter, assign_value, if_pos rfl]
    · have hnil : getv st p = [] := by
        by_contra hne
        exact hpX (getv_ne_nil_mem hne)
      rw [hnil, List.filter_nil, assign_value, if_pos hnil]
  · rfl

/-- On a fully solved, group-consistent state `__eliminate` is the
identity. -/
theorem eliminate_id {X : List String} {D : List Char} {C : List (List String)}
    {peers : String → List String} (H : Hyps X D C peers)
    {st : PState} (hkeys : keyList st = X)
    (hone : ∀ v ∈ X, (getv st v).length = 1)
    (hdist : ∀ g ∈ C, ∀ u ∈ g, ∀ v ∈ g, u ≠ v → getv st u ≠ getv st v) :
    eliminate peers st = st := by
  rw [eliminate]
  apply foldl_fix
  intro item hitem
  exact elimStep_id H hkeys hone hdist (hkeys ▸ solvedKeys_mem_keyList hitem)

/-- On a fully solved state `__only_choice` is the identity: when a
symbol survives in exactly one member of a group, that member is solved
and its sole candidate is that symbol, so the `!=`-guarded assignment
is a no-op. -/
theorem only_choice_id {X : List String} {D : List Char} {C : List (List String)}
    {st : PState} (hsub : ∀ g ∈ C, ∀ v ∈ g, v ∈ X)
    (hone : ∀ v ∈ X, (getv st v).length = 1) :
    only_choice C D st = st := by
  rw [only_choice]
  apply foldl_fix
  intro unit hunit
  apply foldl_fix
  intro c hc
  rw [ocStep]
  split
  · rename_i item heq
    have hmem : item ∈ unit.filter (fun item => (getv st item).contains c) := by
      rw [heq]
      exact List.mem_singleton.mpr rfl
    have h2 := List.mem_filter.mp hmem
    have hcmem : c ∈ getv st item := by
      have h3 := h2.2
      simpa using h3
    obtain ⟨c', hc'⟩ := List.length_eq_one.mp (hone item (hsub unit hunit item h2.1))
    have hval : getv st item = [c] := by
      rw [hc'] at hcmem ⊢
      rw [List.mem_singleton] at hcmem
      rw [hcmem]
    rw [assign_value, if_pos hval]
  · rfl

/-- C4 (amended): counters are reset per call and `solve` is
deterministic, but a second `solve` on the same instance finds the
stored solution at once: it succeeds again with the same stored state
and reports exactly one propagation pass and zero branch nodes. -/
theorem claim_c4_amended_resolve (s : Solver) (H : Hyps s.X s.D s.C s.peers)
    (hx : s.extra = []) (hfresh : s.solved = false)
    (hkeys : keyList s.internal_state = s.X) (hnd : s.X.Nodup)
    {s₁ : Solver} (h : solve s = some (true, s₁)) :
    ∃ s₂, solve s₁ = some (true, s₂) ∧
      s₂.internal_state = s₁.internal_state ∧
      s₂.reduce_count = 1 ∧ s₂.search_count = 0 := by
  have hxs : ∀ f ∈ s.extra, ShrinkRule f := by
    rw [hx]
    intro f hf
    cases hf
  obtain ⟨st, stx, ss, hsr, hemp, hrec⟩ := solve_true_inv hfresh h
  obtain ⟨hshr, hone, hnoemp, st₀, hpass, hcount⟩ :=
    searchLoop_found_main (rules_shrink hxs) hsr
  have hkeysr : keyList st = s.X := by rw [hshr.keyList, hkeys]
  rw [Solver.rules] at hpass
  have hdist := stalled_solved_distinct hxs hkeysr hnd hone hnoemp hpass hcount
    H.groups_sub H.mem_peers
  have helim : eliminate s.peers st = st := eliminate_id H hkeysr hone hdist
  have hoc : only_choice s.C s.D st = st := only_choice_id H.groups_sub hone
  have hpassid : applyRules [eliminate s.peers, only_choice s.C s.D] st = st := by
    show only_choice s.C s.D (eliminate s.peers st) = st
    rw [helim, hoc]
  have hred : reduceLoop [eliminate s.peers, only_choice s.C s.D]
      (s.X.length + 1) st = some (true, st) := by
    rw [reduceLoop, hpassid, hnoemp]
    rw [if_neg (by simp), if_pos rfl]
  have hall : s.X.all (fun v => (getv st v).length == 1) = true := by
    rw [List.all_eq_true]
    intro v hv
    simpa using hone v hv
  have hsl : searchLoop [eliminate s.peers, only_choice s.C s.D] s.X
      (s.X.length + 1) (mu st + 1) st (0, 0) = some (SR.found st, st, (1, 0)) := by
    rw [searchLoop, hred]
    dsimp only
    rw [if_pos hall]
  subst hrec
  refine ⟨{ s with
    internal_state := st
    solved := true
    reduce_count := 1
    search_count := 0 }, ?_, rfl, rfl, rfl⟩
  rw [solve]
  dsimp only [Solver.rules]
  rw [hx, List.append_nil, hsl]
  dsimp only
  rw [if_neg (by rw [hemp]; exact Bool.false_ne_true)]

/-- Witness for C4: re-solving the already-solved map instance succeeds
with the stored state and counters `(reduce, search) = (1, 0)`. -/
theorem claim_c4_amended_witness :
    ∃ s₂, solve aussieAfter = some (true, s₂) ∧
      s₂.internal_state = aussieAfter.internal_state ∧
      s₂.reduce_count = 1 ∧ s₂.search_count = 0 := by
  have h : solve aussie = some (true, aussieAfter) := by rfl
  exact claim_c4_amended_resolve aussie
    ⟨by decide, by decide, by decide, by decide, by decide, by decide⟩
    rfl rfl (by decide) (by decide) h

end CSolver
